import Mathlib

/-!
Verification development for the tokentools repository.

This file gives a shallow embedding of the core of the application: the
counting primitives, the approximate tokenizer, the JSON / YAML-lite
format converters with their token-aware quoting mode, the tokenize API
route, the stale-response guard of the exact-tokenization effect, and the
parse/convert orchestration step.  Theorems about these definitions settle
the specification claims.

Modelling conventions:
- JavaScript strings are modelled by Lean strings (sequences of Unicode
  scalar values).  Offsets and lengths therefore count scalar values where
  JavaScript counts UTF-16 code units; the two agree on all strings the
  claims mention.  Byte counts use the UTF-8 size, exactly as
  TextEncoder does for scalar values.
- JSON numbers are modelled as integers; the repository only serializes
  numbers with the standard decimal rendering, and none of the claims
  depends on non-integer numerics.
- The browser branch of each source function is embedded (the application
  runs with window defined); the server-side fallback branches are noted
  where they differ.
-/

/-! ## Character helpers -/

/-- UTF-8 encoded size of one Unicode scalar value, as produced by
TextEncoder in the browser. -/
def utf8CharSize (c : Char) : Nat :=
  if c.toNat < 0x80 then 1
  else if c.toNat < 0x800 then 2
  else if c.toNat < 0x10000 then 3
  else 4

/-- UTF-8 encoded byte length of a string, the value of
TextEncoder().encode(value).length. -/
def utf8ByteLength (s : String) : Nat :=
  (s.data.map utf8CharSize).foldr (· + ·) 0

/-- Membership in the JavaScript whitespace class: the set matched by the
regular expression class backslash-s, which is also the set removed by
String.prototype.trim (WhiteSpace plus LineTerminator). -/
def isJsWhitespace (c : Char) : Bool :=
  c == '\t' || c == '\n' || c == '\u000b' || c == '\u000c' || c == '\r' ||
  c == ' ' || c == '\u00a0' || c == '\u1680' ||
  (decide (0x2000 ≤ c.toNat) && decide (c.toNat ≤ 0x200a)) ||
  c == '\u2028' || c == '\u2029' || c == '\u202f' || c == '\u205f' ||
  c == '\u3000' || c == '\ufeff'

/-- Characters matched by the word class of the approximate tokenizer
regular expression: A-Za-z0-9 underscore hyphen double-quote single-quote
at-sign. -/
def isTokenWordChar (c : Char) : Bool :=
  c.isAlphanum || c == '_' || c == '-' || c == '"' || c == Char.ofNat 39 || c == '@'

/-- Characters matched by the safe bare-word pattern a-zA-Z0-9_- used by
the token-aware quoting rule. -/
def isYamlWordChar (c : Char) : Bool :=
  c.isAlphanum || c == '_' || c == '-'

/-- Lowercase hexadecimal digit for a value below 16, as produced by
Number.prototype.toString with radix 16. -/
def hexDigitChar (n : Nat) : Char :=
  if n < 10 then Char.ofNat (48 + n) else Char.ofNat (87 + n)

/-- Decimal digit character. -/
def digitChar10 (n : Nat) : Char := Char.ofNat (48 + n)

/-- Decimal digit list of a natural number, most significant first.  The
fuel argument bounds the recursion depth; natChars supplies enough. -/
def natToCharsAux : Nat → Nat → List Char → List Char
  | 0, _, acc => acc
  | f + 1, n, acc =>
    if n < 10 then digitChar10 n :: acc
    else natToCharsAux f (n / 10) (digitChar10 (n % 10) :: acc)

/-- Decimal digit list of a natural number. -/
def natChars (n : Nat) : List Char := natToCharsAux (n + 1) n []

/-- Decimal rendering of an integer, as String(number) produces for an
integral JavaScript number. -/
def intChars (i : Int) : List Char :=
  if i < 0 then '-' :: natChars i.natAbs else natChars i.toNat

/-- String form of an integer. -/
def numberToString (i : Int) : String := String.mk (intChars i)

/-- Opening curly brace character. -/
def braceOpen : Char := Char.ofNat 123

/-- Closing curly brace character. -/
def braceClose : Char := Char.ofNat 125

/-! ## Parsed JSON values -/

/-- Decoded JSON value: the ParsedValue of the data model.  Object entries
keep their insertion order. -/
inductive Json where
  | null : Json
  | bool (b : Bool) : Json
  | num (n : Int) : Json
  | str (s : String) : Json
  | arr (xs : List Json) : Json
  | obj (kvs : List (String × Json)) : Json

/-! ## Counting primitives (calculateCounts, approximateTokensFromText) -/

/-- Character and byte counts. -/
structure Counts where
  chars : Nat
  bytes : Nat
deriving DecidableEq, Repr

/-- Embedding of calculateCounts: empty string gives zero counts,
otherwise the scalar-value length and the UTF-8 byte length. -/
def calculateCounts (value : String) : Counts :=
  if value = "" then { chars := 0, bytes := 0 }
  else { chars := value.length, bytes := utf8ByteLength value }

/-- Embedding of approximateTokensFromText: zero for the empty string,
otherwise the ceiling of bytes / 4, floored at 1.  (n + 3) / 4 is the
ceiling of n / 4 in natural division. -/
def approximateTokensFromText (text : String) : Nat :=
  if text = "" then 0
  else max 1 ((utf8ByteLength text + 3) / 4)

/-! ## Approximate tokenizer (simpleTokenize) -/

/-- Token produced by the approximate tokenizer: optional grouping id,
covered text, and start / end offsets. -/
structure SToken where
  id : Option Nat
  text : String
  start : Nat
  stop : Nat
deriving DecidableEq, Repr

/-- Class of a character under the tokenizer alternation, in priority
order: 0 whitespace, 1 word characters, 2 any other non-whitespace. -/
def tokenClass (c : Char) : Nat :=
  if isJsWhitespace c then 0 else if isTokenWordChar c then 1 else 2

/-- Scanner loop of simpleTokenize.  Each regular-expression match is the
maximal run of characters of the class of the run head; whitespace runs
get no id, other runs get an id from the first-occurrence map. -/
def simpleTokenizeAux : Nat → List Char → Nat → List (String × Nat) → Nat → List SToken
  | 0, _, _, _, _ => []
  | _ + 1, [], _, _, _ => []
  | f + 1, c :: cs, pos, idMap, nextId =>
    let cls := tokenClass c
    let run := c :: cs.takeWhile (fun d => tokenClass d = cls)
    let rest := cs.dropWhile (fun d => tokenClass d = cls)
    let txt := String.mk run
    let len := run.length
    if cls = 0 then
      ⟨none, txt, pos, pos + len⟩ :: simpleTokenizeAux f rest (pos + len) idMap nextId
    else
      match idMap.lookup txt with
      | some i => ⟨some i, txt, pos, pos + len⟩ :: simpleTokenizeAux f rest (pos + len) idMap nextId
      | none =>
        ⟨some nextId, txt, pos, pos + len⟩ ::
          simpleTokenizeAux f rest (pos + len) ((txt, nextId) :: idMap) (nextId + 1)

/-- Embedding of simpleTokenize. -/
def simpleTokenize (text : String) : List SToken :=
  if text = "" then []
  else simpleTokenizeAux text.data.length text.data 0 [] 1

/-- Concatenation of the text fields of a token sequence, in order. -/
def textConcat : List SToken → String
  | [] => ""
  | t :: ts => t.text ++ textConcat ts

/-! ## Token-aware bare-word rule (isReservedYamlWord and the safe pattern) -/

/-- ASCII lowercasing, the effect of String.prototype.toLowerCase on the
strings this predicate can meet (the reserved words are ASCII, and the
only non-ASCII character that lowercases into ASCII, the Kelvin sign,
cannot produce any reserved word). -/
def toLowerString (s : String) : String := String.mk (s.data.map Char.toLower)

/-- Embedding of isReservedYamlWord, keeping the duplicated true entry of
the source list. -/
def isReservedYamlWord (word : String) : Bool :=
  ["true", "false", "null", "yes", "no", "on", "off", "true", "~"].contains
    (toLowerString word)

/-- Test of the pattern one-or-more of a-zA-Z0-9_- anchored at both ends,
as the regular expression test used by the converters. -/
def matchesSafePattern (s : String) : Bool :=
  decide (s.data ≠ []) && s.data.all isYamlWordChar

/-- The condition under which the converters emit a string bare in
token-aware mode: the safe pattern matches and the word is not reserved.
This exact conjunction appears in jsonToYamlLite and in the jsonStringify
replacer. -/
def bareWordOk (s : String) : Bool :=
  matchesSafePattern s && !isReservedYamlWord s

/-! ## JSON string quoting (the escaping JSON.stringify applies) -/

/-- Escape sequence JSON.stringify emits for one character: the named
escapes, a backslash-u 2-digit-hex form for other control characters, and
the character itself otherwise. -/
def escChar (c : Char) : List Char :=
  if c = '"' then ['\\', '"']
  else if c = '\\' then ['\\', '\\']
  else if c = '\u0008' then ['\\', 'b']
  else if c = '\t' then ['\\', 't']
  else if c = '\n' then ['\\', 'n']
  else if c = '\u000c' then ['\\', 'f']
  else if c = '\r' then ['\\', 'r']
  else if c.toNat < 0x20 then
    ['\\', 'u', '0', '0', hexDigitChar (c.toNat / 16), hexDigitChar (c.toNat % 16)]
  else [c]

/-- Escaped character list of a string body. -/
def escList : List Char → List Char
  | [] => []
  | c :: cs => escChar c ++ escList cs

/-- Quoted JSON string literal for a string value. -/
def quoteJson (s : String) : String :=
  String.mk ('"' :: escList s.data ++ ['"'])

/-! ## JSON serializer (JSON.stringify with an optional gap) -/

/-- Gap string JSON.stringify derives from its third argument: a number
yields that many spaces capped at ten, undefined yields the empty gap. -/
def gapOfIndent : Option Nat → List Char
  | none => []
  | some n => List.replicate (min n 10) ' '

/-- Join a list of rendered parts with a separator. -/
def joinSep (sep : List Char) : List (List Char) → List Char
  | [] => []
  | [p] => p
  | p :: q :: rest => p ++ sep ++ joinSep sep (q :: rest)

mutual

/-- Embedding of the JSON.stringify serialization loop: gap is the
derived gap, indent the accumulated indentation of the current level. -/
def serVal (gap indent : List Char) : Json → List Char
  | .null => 'n' :: 'u' :: 'l' :: 'l' :: []
  | .bool true => 't' :: 'r' :: 'u' :: 'e' :: []
  | .bool false => 'f' :: 'a' :: 'l' :: 's' :: 'e' :: []
  | .num n => intChars n
  | .str s => '"' :: escList s.data ++ ['"']
  | .arr [] => '[' :: ']' :: []
  | .arr (x :: xs) =>
    let indent1 := indent ++ gap
    let parts := serItems gap indent1 (x :: xs)
    if gap = [] then '[' :: joinSep [','] parts ++ [']']
    else
      '[' :: '\n' :: indent1 ++ joinSep (',' :: '\n' :: indent1) parts ++
        '\n' :: indent ++ [']']
  | .obj [] => braceOpen :: braceClose :: []
  | .obj (kv :: kvs) =>
    let indent1 := indent ++ gap
    let parts := serEntries gap indent1 (kv :: kvs)
    if gap = [] then braceOpen :: joinSep [','] parts ++ [braceClose]
    else
      braceOpen :: '\n' :: indent1 ++ joinSep (',' :: '\n' :: indent1) parts ++
        '\n' :: indent ++ [braceClose]

/-- Rendered array elements. -/
def serItems (gap indent1 : List Char) : List Json → List (List Char)
  | [] => []
  | x :: xs => serVal gap indent1 x :: serItems gap indent1 xs

/-- Rendered object entries: quoted key, colon, a space when the gap is
non-empty, then the rendered value. -/
def serEntries (gap indent1 : List Char) : List (String × Json) → List (List Char)
  | [] => []
  | (k, v) :: kvs =>
    ('"' :: escList k.data ++ '"' :: ':' :: (if gap = [] then [] else [' ']) ++
      serVal gap indent1 v) :: serEntries gap indent1 kvs

end

/-! ## Token-aware stringify: marker wrapping and the unquote post-pass -/

/-- The marker prefix the replacer wraps safe strings in. -/
def markerChars : List Char := '_' :: '_' :: 'U' :: 'N' :: 'Q' :: 'U' :: 'O' :: 'T' :: 'E' :: 'D' :: '_' :: '_' :: []

/-- Marker-wrapped form of a safe string value. -/
def markerize (s : String) : String :=
  String.mk (markerChars ++ s.data ++ ['_', '_'])

mutual

/-- Effect of the jsonStringify replacer on a value tree: every string
value satisfying the safe bare-word condition is replaced by its
marker-wrapped form; keys and other values are untouched. -/
def mapEligible : Json → Json
  | .null => .null
  | .bool b => .bool b
  | .num n => .num n
  | .str s => if bareWordOk s then .str (markerize s) else .str s
  | .arr xs => .arr (mapEligibleList xs)
  | .obj kvs => .obj (mapEligibleObj kvs)

/-- mapEligible on array elements. -/
def mapEligibleList : List Json → List Json
  | [] => []
  | x :: xs => mapEligible x :: mapEligibleList xs

/-- mapEligible on object entry values. -/
def mapEligibleObj : List (String × Json) → List (String × Json)
  | [] => []
  | (k, v) :: kvs => (k, mapEligible v) :: mapEligibleObj kvs

end

/-- Lazy capture of the post-pass regular expression: after the literal
quote-marker prefix, the shortest non-empty run of non-newline characters
followed by underscore underscore quote.  Returns the capture and the
text after the whole match. -/
def lazyCap : List Char → Option (List Char × List Char)
  | [] => none
  | c :: cs =>
    if c = '\n' then none
    else if cs.take 3 = ['_', '_', '"'] then some ([c], cs.drop 3)
    else
      match lazyCap cs with
      | some (p, r) => some (c :: p, r)
      | none => none

/-- Global replace pass removing the marker wrappers: scan left to right;
at a match of quote marker-prefix capture underscore underscore quote,
emit the capture and continue after the match, otherwise emit one
character.  Fuel bounds the number of scan steps; one unit per emitted
chunk suffices, and the wrapper passes the input length. -/
def rmAux : Nat → List Char → List Char
  | 0, cs => cs
  | _ + 1, [] => []
  | f + 1, c :: cs =>
    if c = '"' ∧ cs.take 12 = markerChars then
      match lazyCap (cs.drop 12) with
      | some (cap, rest) => cap ++ rmAux f rest
      | none => c :: rmAux f cs
    else c :: rmAux f cs

/-- The marker-removal replace applied by jsonStringify in token-aware
mode. -/
def rmF (cs : List Char) : List Char := rmAux cs.length cs

/-- Embedding of jsonStringify: plain JSON.stringify when token-aware is
off; with token-aware on, stringify after the marker-wrapping replacer,
then the global unquote replace. -/
def jsonStringify (tokenAware : Bool) (indentOpt : Option Nat) (value : Json) : String :=
  if tokenAware then
    String.mk (rmF (serVal (gapOfIndent indentOpt) [] (mapEligible value)))
  else
    String.mk (serVal (gapOfIndent indentOpt) [] value)

mutual

/-- Specification-side description of the token-aware serialization: the
standard serializer except that exactly the leaf string values passing
the safe bare-word rule are emitted without their surrounding quotes.
This definition follows the words of the specification and is compared
with the marker-and-postpass implementation. -/
def serValD (gap indent : List Char) : Json → List Char
  | .null => 'n' :: 'u' :: 'l' :: 'l' :: []
  | .bool true => 't' :: 'r' :: 'u' :: 'e' :: []
  | .bool false => 'f' :: 'a' :: 'l' :: 's' :: 'e' :: []
  | .num n => intChars n
  | .str s => if bareWordOk s then s.data else '"' :: escList s.data ++ ['"']
  | .arr [] => '[' :: ']' :: []
  | .arr (x :: xs) =>
    let indent1 := indent ++ gap
    let parts := serItemsD gap indent1 (x :: xs)
    if gap = [] then '[' :: joinSep [','] parts ++ [']']
    else
      '[' :: '\n' :: indent1 ++ joinSep (',' :: '\n' :: indent1) parts ++
        '\n' :: indent ++ [']']
  | .obj [] => braceOpen :: braceClose :: []
  | .obj (kv :: kvs) =>
    let indent1 := indent ++ gap
    let parts := serEntriesD gap indent1 (kv :: kvs)
    if gap = [] then braceOpen :: joinSep [','] parts ++ [braceClose]
    else
      braceOpen :: '\n' :: indent1 ++ joinSep (',' :: '\n' :: indent1) parts ++
        '\n' :: indent ++ [braceClose]

/-- serValD on array elements. -/
def serItemsD (gap indent1 : List Char) : List Json → List (List Char)
  | [] => []
  | x :: xs => serValD gap indent1 x :: serItemsD gap indent1 xs

/-- serValD on object entries. -/
def serEntriesD (gap indent1 : List Char) : List (String × Json) → List (List Char)
  | [] => []
  | (k, v) :: kvs =>
    ('"' :: escList k.data ++ '"' :: ':' :: (if gap = [] then [] else [' ']) ++
      serValD gap indent1 v) :: serEntriesD gap indent1 kvs

end

/-- Marker-freedom of a character list: no suffix starts with the marker
prefix. -/
def markerFreeL : List Char → Bool
  | [] => true
  | c :: cs => !((c :: cs).take 12 == markerChars) && markerFreeL cs

mutual

/-- Marker-freedom of a value tree: no string value and no object key
contains the marker prefix as a substring. -/
def jsonMarkerFree : Json → Bool
  | .null => true
  | .bool _ => true
  | .num _ => true
  | .str s => markerFreeL s.data
  | .arr xs => jsonMarkerFreeList xs
  | .obj kvs => jsonMarkerFreeObj kvs

/-- jsonMarkerFree on array elements. -/
def jsonMarkerFreeList : List Json → Bool
  | [] => true
  | x :: xs => jsonMarkerFree x && jsonMarkerFreeList xs

/-- jsonMarkerFree on object entries. -/
def jsonMarkerFreeObj : List (String × Json) → Bool
  | [] => true
  | (k, v) :: kvs => markerFreeL k.data && jsonMarkerFree v && jsonMarkerFreeObj kvs

end

mutual

/-- Whether a value tree contains any string value that the token-aware
mode would emit bare (the bare-word-eligible strings of the claim). -/
def containsEligibleString : Json → Bool
  | .null => false
  | .bool _ => false
  | .num _ => false
  | .str s => bareWordOk s
  | .arr xs => containsEligibleStringList xs
  | .obj kvs => containsEligibleStringObj kvs

/-- containsEligibleString on array elements. -/
def containsEligibleStringList : List Json → Bool
  | [] => false
  | x :: xs => containsEligibleString x || containsEligibleStringList xs

/-- containsEligibleString on object entry values. -/
def containsEligibleStringObj : List (String × Json) → Bool
  | [] => false
  | (_, v) :: kvs => containsEligibleString v || containsEligibleStringObj kvs

end

/-! ## JSON parser (model of JSON.parse for re-parsing outputs) -/

/-- JSON insignificant whitespace. -/
def isJsonWs (c : Char) : Bool :=
  c == ' ' || c == '\t' || c == '\n' || c == '\r'

/-- Skip insignificant whitespace. -/
def skipWs (cs : List Char) : List Char := cs.dropWhile isJsonWs

/-- Hexadecimal digit test. -/
def isHexDigit (c : Char) : Bool :=
  c.isDigit || (decide (97 ≤ c.toNat) && decide (c.toNat ≤ 102)) ||
    (decide (65 ≤ c.toNat) && decide (c.toNat ≤ 70))

/-- Value of a hexadecimal digit. -/
def hexVal (c : Char) : Nat :=
  if c.isDigit then c.toNat - 48
  else if decide (97 ≤ c.toNat) then c.toNat - 87
  else c.toNat - 55

/-- Numeric value of a decimal digit list. -/
def digitsToNat (ds : List Char) : Nat :=
  ds.foldl (fun a c => 10 * a + (c.toNat - 48)) 0

/-- Parse the body of a string literal after the opening quote, undoing
the JSON escape sequences; surrogate escapes outside the scalar range are
not representable here and none is produced by the serializer.  The fuel
counts scan steps; one per produced character suffices and the wrapper
passes the input length. -/
def parseStrCharsF : Nat → List Char → Option (List Char × List Char)
  | 0, _ => none
  | _ + 1, [] => none
  | f + 1, c :: r =>
    if c = '"' then some ([], r)
    else if c = '\\' then
      match r with
      | [] => none
      | e :: r2 =>
        if e = '"' then (parseStrCharsF f r2).map (fun p => ('"' :: p.1, p.2))
        else if e = '\\' then (parseStrCharsF f r2).map (fun p => ('\\' :: p.1, p.2))
        else if e = '/' then (parseStrCharsF f r2).map (fun p => ('/' :: p.1, p.2))
        else if e = 'b' then (parseStrCharsF f r2).map (fun p => ('\u0008' :: p.1, p.2))
        else if e = 'f' then (parseStrCharsF f r2).map (fun p => ('\u000c' :: p.1, p.2))
        else if e = 'n' then (parseStrCharsF f r2).map (fun p => ('\n' :: p.1, p.2))
        else if e = 'r' then (parseStrCharsF f r2).map (fun p => ('\r' :: p.1, p.2))
        else if e = 't' then (parseStrCharsF f r2).map (fun p => ('\t' :: p.1, p.2))
        else if e = 'u' then
          match r2 with
          | h1 :: h2 :: h3 :: h4 :: r3 =>
            if isHexDigit h1 && isHexDigit h2 && isHexDigit h3 && isHexDigit h4 then
              (parseStrCharsF f r3).map (fun p =>
                (Char.ofNat (((hexVal h1 * 16 + hexVal h2) * 16 + hexVal h3) * 16 + hexVal h4) :: p.1, p.2))
            else none
          | _ => none
        else none
    else if decide (c.toNat < 0x20) then none
    else (parseStrCharsF f r).map (fun p => (c :: p.1, p.2))

/-- String literal body parser. -/
def parseStrChars (cs : List Char) : Option (List Char × List Char) :=
  parseStrCharsF cs.length cs

/-- Parse an integer numeric literal (the only numeric form the
serializer emits): optional minus sign then a non-empty digit run. -/
def parseNumValue (cs : List Char) : Option (Json × List Char) :=
  match cs with
  | [] => none
  | c :: r =>
    if c = '-' then
      if r.takeWhile Char.isDigit = [] then none
      else some (.num (-(digitsToNat (r.takeWhile Char.isDigit) : Int)), r.dropWhile Char.isDigit)
    else
      if (c :: r).takeWhile Char.isDigit = [] then none
      else some (.num (digitsToNat ((c :: r).takeWhile Char.isDigit)),
        (c :: r).dropWhile Char.isDigit)

mutual

/-- Recursive-descent JSON value parser with fuel.  Returns the value and
the unconsumed remainder. -/
def parseValue : Nat → List Char → Option (Json × List Char)
  | 0, _ => none
  | f + 1, cs =>
    match skipWs cs with
    | [] => none
    | c :: r =>
      if c = 'n' then (if r.take 3 = ['u', 'l', 'l'] then some (.null, r.drop 3) else none)
      else if c = 't' then (if r.take 3 = ['r', 'u', 'e'] then some (.bool true, r.drop 3) else none)
      else if c = 'f' then (if r.take 4 = ['a', 'l', 's', 'e'] then some (.bool false, r.drop 4) else none)
      else if c = '"' then
        (parseStrChars r).map (fun p => (.str (String.mk p.1), p.2))
      else if c = '[' then
        match skipWs r with
        | [] => none
        | c2 :: r2 =>
          if c2 = ']' then some (.arr [], r2)
          else (parseItems f (c2 :: r2)).map (fun p => (.arr p.1, p.2))
      else if c = braceOpen then
        match skipWs r with
        | [] => none
        | c2 :: r2 =>
          if c2 = braceClose then some (.obj [], r2)
          else (parseEntries f (c2 :: r2)).map (fun p => (.obj p.1, p.2))
      else if c = '-' ∨ c.isDigit then parseNumValue (c :: r)
      else none

/-- Parse the comma-separated element list of a non-empty array, through
the closing bracket. -/
def parseItems : Nat → List Char → Option (List Json × List Char)
  | 0, _ => none
  | f + 1, cs =>
    match parseValue f cs with
    | none => none
    | some (v, r) =>
      match skipWs r with
      | [] => none
      | c :: r2 =>
        if c = ',' then (parseItems f r2).map (fun p => (v :: p.1, p.2))
        else if c = ']' then some ([v], r2)
        else none

/-- Parse the comma-separated entry list of a non-empty object, through
the closing brace. -/
def parseEntries : Nat → List Char → Option (List (String × Json) × List Char)
  | 0, _ => none
  | f + 1, cs =>
    match skipWs cs with
    | [] => none
    | c :: r =>
      if c = '"' then
        match parseStrChars r with
        | none => none
        | some (k, r2) =>
          match skipWs r2 with
          | [] => none
          | c2 :: r3 =>
            if c2 = ':' then
              match parseValue f r3 with
              | none => none
              | some (v, r4) =>
                match skipWs r4 with
                | [] => none
                | c3 :: r5 =>
                  if c3 = ',' then
                    (parseEntries f r5).map (fun p => ((String.mk k, v) :: p.1, p.2))
                  else if c3 = braceClose then some ([(String.mk k, v)], r5)
                  else none
            else none
      else none

end

/-- Model of JSON.parse: parse one value, then require only whitespace to
remain.  Duplicate object keys are kept in order of appearance; the
serializer never emits duplicates for a parsed value. -/
def jsonParse (s : String) : Option Json :=
  match parseValue (s.data.length + 1) s.data with
  | some (v, rest) => if skipWs rest = [] then some v else none
  | none => none

/-! ## YAML-lite converter (jsonToYamlLite) -/

/-- Indentation string of a level: two spaces repeated. -/
def indentStr (n : Nat) : String := String.mk (List.replicate (2 * n) ' ')

/-- Join rendered lines with newlines, as Array.prototype.join does. -/
def joinNl : List String → String
  | [] => ""
  | [x] => x
  | x :: y :: rest => x ++ "\n" ++ joinNl (y :: rest)

/-- Split on newline characters, as String.prototype.split with a newline
separator: always at least one (possibly empty) part. -/
def splitNl : List Char → List (List Char)
  | [] => [[]]
  | c :: cs =>
    if c = '\n' then [] :: splitNl cs
    else
      match splitNl cs with
      | [] => [[c]]
      | l :: ls => (c :: l) :: ls

/-- Replace every newline by a newline followed by the given indentation,
the effect of the replace-all in the object branch. -/
def replaceNl (ind : String) : List Char → List Char
  | [] => []
  | c :: cs =>
    if c = '\n' then '\n' :: (ind.data ++ replaceNl ind cs)
    else c :: replaceNl ind cs

/-- First line of a rendering. -/
def firstLineOf (s : String) : String :=
  match splitNl s.data with
  | [] => ""
  | l :: _ => String.mk l

/-- Remaining lines of a rendering. -/
def restLinesOf (s : String) : List String :=
  ((splitNl s.data).drop 1).map String.mk

/-- The non-null-object test of the source: typeof object and not null;
true exactly for arrays and objects here. -/
def isNonNullObject : Json → Bool
  | .arr _ => true
  | .obj _ => true
  | _ => false

mutual

/-- Embedding of jsonToYamlLite. -/
def jsonToYamlLite (value : Json) (indent : Nat) (tokenAware : Bool) : String :=
  match value with
  | .null => "null"
  | .bool true => "true"
  | .bool false => "false"
  | .num n => numberToString n
  | .str s => if tokenAware && bareWordOk s then s else quoteJson s
  | .arr [] => "[]"
  | .arr (x :: xs) => joinNl (yamlItems (x :: xs) indent tokenAware)
  | .obj [] => String.mk [braceOpen, braceClose]
  | .obj (kv :: kvs) => joinNl (yamlEntries (kv :: kvs) indent tokenAware)

/-- Array branch of jsonToYamlLite: one rendered line group per element;
a multi-line non-null-object element keeps its first line after the dash
and its remaining lines two spaces deeper. -/
def yamlItems (items : List Json) (indent : Nat) (tokenAware : Bool) : List String :=
  match items with
  | [] => []
  | item :: rest =>
    let space := indentStr indent
    let nested := jsonToYamlLite item (indent + 1) tokenAware
    let rendered :=
      if isNonNullObject item && nested.data.contains '\n' then
        space ++ "- " ++ firstLineOf nested ++ "\n" ++
          joinNl ((restLinesOf nested).map (fun line => "  " ++ line))
      else
        space ++ "- " ++ nested
    rendered :: yamlItems rest indent tokenAware

/-- Object branch of jsonToYamlLite: a non-null-object value goes below
the key line with one more level of indentation prefixed to every line of
its rendering; a scalar value stays inline after the key. -/
def yamlEntries (entries : List (String × Json)) (indent : Nat) (tokenAware : Bool) : List String :=
  match entries with
  | [] => []
  | (key, val) :: rest =>
    let space := indentStr indent
    let nested := jsonToYamlLite val (indent + 1) tokenAware
    let rendered :=
      if isNonNullObject val then
        space ++ key ++ ":\n" ++ indentStr (indent + 1) ++
          String.mk (replaceNl (indentStr (indent + 1)) nested.data)
      else
        space ++ key ++ ": " ++ nested
    rendered :: yamlEntries rest indent tokenAware

end

/-! ## Specification-side bare-word predicate -/

/-- Specification reading of the bare-word rule: one or more characters,
each an ASCII letter, digit, underscore, or hyphen, and the lowercased
form outside the reserved set.  Stated from the words of the
specification for comparison with the implementation condition. -/
def specBareWordEligible (s : String) : Prop :=
  (s.data ≠ [] ∧ ∀ c ∈ s.data,
    (65 ≤ c.toNat ∧ c.toNat ≤ 90) ∨ (97 ≤ c.toNat ∧ c.toNat ≤ 122) ∨
    (48 ≤ c.toNat ∧ c.toNat ≤ 57) ∨ c = '_' ∨ c = '-') ∧
  toLowerString s ∉ ["true", "false", "null", "yes", "no", "on", "off", "~"]

/-! ## Tokenize API route (POST of src/app/api/tokenize/route.ts) -/

/-- Exact token of the wire format: vocabulary id and covered text. -/
structure ExactToken where
  id : Nat
  text : String
deriving DecidableEq, Repr

/-- Parsed request body of the tokenize route.  A missing field is none;
the absent-or-empty model string both fail the truthiness check of the
route. -/
structure TokenizeRequestBody where
  model : Option String
  texts : Option (List (String × Option String))

/-- Response of the tokenize route: HTTP status, optional error message
payload, optional token payload.  The route never returns both. -/
structure RouteResponse where
  status : Nat
  error : Option String
  tokens : Option (List (String × List ExactToken))

/-- Per-key encoding loop of the route: an absent or empty text yields an
empty token list; the first encoder failure fails the whole batch.  The
encoder stands for the tiktoken library, which is outside this
repository. -/
def encodeTexts (enc : String → Except String (List ExactToken)) :
    List (String × Option String) → Except String (List (String × List ExactToken))
  | [] => .ok []
  | (key, txt) :: rest =>
    match txt with
    | none => (encodeTexts enc rest).map (fun r => (key, []) :: r)
    | some t =>
      if t = "" then (encodeTexts enc rest).map (fun r => (key, []) :: r)
      else
        match enc t with
        | .error e => .error e
        | .ok toks => (encodeTexts enc rest).map (fun r => (key, toks) :: r)

/-- Embedding of the POST handler: malformed body, missing model, missing
texts, and unsupported model are rejected with status 400 in that order;
an encoder failure yields status 500; otherwise status 200 with the token
map. -/
def POST (enc : String → Except String (List ExactToken))
    (body : Option TokenizeRequestBody) : RouteResponse :=
  match body with
  | none => { status := 400, error := some "Invalid JSON body", tokens := none }
  | some b =>
    match b.model with
    | none => { status := 400, error := some "Missing or invalid model", tokens := none }
    | some model =>
      if model = "" then
        { status := 400, error := some "Missing or invalid model", tokens := none }
      else
        match b.texts with
        | none => { status := 400, error := some "Missing or invalid texts", tokens := none }
        | some texts =>
          if model ≠ "cl100k_base" then
            { status := 400, error := some ("Unsupported model: " ++ model), tokens := none }
          else
            match encodeTexts enc texts with
            | .error e => { status := 500, error := some e, tokens := none }
            | .ok toks => { status := 200, error := none, tokens := some toks }

/-! ## Exact-tokenization effect and its stale-response guard -/

/-- Observable events of the tokenization effect of the page: issuing a
new request (a new effect run, preceded by the cleanup of the previous
run) and the resolution of an issued request with some payload. -/
inductive FetchEvent (α : Type) where
  | issue (reqId : Nat) : FetchEvent α
  | resolve (reqId : Nat) (result : α) : FetchEvent α
deriving DecidableEq

/-- State of the effect system: the set of request ids whose closure flag
cancelled was set by the effect cleanup, the currently in-flight request,
and the shared exact-token state together with the id of the request that
applied it. -/
structure EffectState (α : Type) where
  cancelled : List Nat
  current : Option Nat
  exactTokens : Option (Nat × α)
deriving DecidableEq, Repr

/-- One event step.  Issuing runs the cleanup of the previous effect
first, which sets the cancelled flag of the in-flight request and aborts
its fetch; a resolution applies its payload to the shared state only when
the cancelled flag of its own closure is still unset, exactly the
if-not-cancelled guard around setExactTokens. -/
def stepFetch (s : EffectState α) : FetchEvent α → EffectState α
  | .issue i =>
    { cancelled := (match s.current with | some j => j :: s.cancelled | none => s.cancelled),
      current := some i,
      exactTokens := s.exactTokens }
  | .resolve i r =>
    if i ∈ s.cancelled then s else { s with exactTokens := some (i, r) }

/-- Run a sequence of events. -/
def runFetch (s0 : EffectState α) (es : List (FetchEvent α)) : EffectState α :=
  es.foldl stepFetch s0

/-! ## Orchestration step (the parse/convert memo of the page) -/

/-- Output record of one conversion pass. -/
structure ConvertOutputs where
  error : String
  prettyJson : String
  minifiedJson : String
  yaml : String
  toon : String
  toml : String
deriving DecidableEq, Repr

/-- String.prototype.trim: strip JavaScript whitespace from both ends. -/
def jsTrim (s : String) : String :=
  String.mk (((s.data.dropWhile isJsWhitespace).reverse.dropWhile isJsWhitespace).reverse)

/-- Embedding of the parse/convert memo: blank input (empty after trim)
yields empty outputs and no error without running any converter; a parse
failure yields empty outputs and the parser message; otherwise all five
converters run.  The TOON and TOML converters and the parser message are
parameters because their bodies live outside the embedded core. -/
def computeOutputs (toonEnc : Json → String) (tomlEnc : Json → Bool → String)
    (parseMsg : String → String) (showTokenAware : Bool) (input : String) : ConvertOutputs :=
  if jsTrim input = "" then
    { error := "", prettyJson := "", minifiedJson := "", yaml := "", toon := "", toml := "" }
  else
    match jsonParse input with
    | some parsed =>
      { error := ""
        prettyJson := jsonStringify showTokenAware (some 2) parsed
        minifiedJson := jsonStringify showTokenAware none parsed
        yaml := jsonToYamlLite parsed 0 showTokenAware
        toon := toonEnc parsed
        toml := tomlEnc parsed showTokenAware }
    | none =>
      { error := parseMsg input, prettyJson := "", minifiedJson := "", yaml := "",
        toon := "", toml := "" }

/-- Marker-freedom as a proposition: no suffix of the list starts with
the marker prefix. -/
def MF (l : List Char) : Prop := ∀ j : Nat, ¬ (markerChars <+: l.drop j)

/-! ## Structural size and parser-facing predicates -/

/-- No leading digit: the next character, if any, is not a decimal digit,
so a greedy digit scan stops exactly at the boundary. -/
def headNotDigit (l : List Char) : Prop :=
  ∀ c, l.head? = some c → c.isDigit = false

/-- Characters that can start a serialized JSON value. -/
def goodHead (c : Char) : Prop :=
  c = 'n' ∨ c = 't' ∨ c = 'f' ∨ c = '"' ∨ c = '[' ∨ c = braceOpen ∨
    c = '-' ∨ c.isDigit = true

mutual

/-- Structural size of a value, used to budget parser fuel. -/
def sizeJ : Json → Nat
  | .null => 1
  | .bool _ => 1
  | .num _ => 1
  | .str _ => 1
  | .arr xs => 1 + sizeL xs
  | .obj kvs => 1 + sizeO kvs

/-- Size of an element list. -/
def sizeL : List Json → Nat
  | [] => 0
  | x :: xs => sizeJ x + 1 + sizeL xs

/-- Size of an entry list. -/
def sizeO : List (String × Json) → Nat
  | [] => 0
  | (_, v) :: kvs => sizeJ v + 1 + sizeO kvs

end

/-! ## General helper lemmas -/

/-- A string is its character list. -/
theorem stringMk_data (s : String) : String.mk s.data = s := rfl

/-- Append of strings is append of their character lists. -/
theorem stringMk_append (a b : List Char) : String.mk a ++ String.mk b = String.mk (a ++ b) := rfl

/-- Every scalar value occupies at least one UTF-8 byte. -/
theorem utf8CharSize_pos (c : Char) : 1 ≤ utf8CharSize c := by
  unfold utf8CharSize
  split
  · exact Nat.le_refl 1
  · split
    · omega
    · split <;> omega

/-- Byte length bounds the character count from above. -/
theorem length_le_byteLength (l : List Char) :
    l.length ≤ (l.map utf8CharSize).foldr (· + ·) 0 := by
  induction l with
  | nil => simp
  | cons c cs ih =>
    simp only [List.map_cons, List.foldr_cons, List.length_cons]
    have := utf8CharSize_pos c
    omega

/-! ## Claim C5: approximate token count -/

/-- Claim C5: the approximate token count of the empty string is 0, and
for every non-empty string it is the ceiling of the UTF-8 byte length
over four, floored at one, hence at least one. -/
theorem approximateTokenCount_spec :
    approximateTokensFromText "" = 0 ∧
    (∀ s : String, s ≠ "" →
      approximateTokensFromText s = max 1 ((utf8ByteLength s + 3) / 4)) ∧
    (∀ s : String, s ≠ "" → 1 ≤ approximateTokensFromText s) := by
  refine ⟨rfl, ?_, ?_⟩
  · intro s hs
    simp [approximateTokensFromText, hs]
  · intro s hs
    simp [approximateTokensFromText, hs]

/-- Witness for claim C5 at a concrete non-empty string. -/
theorem approximateTokenCount_spec_witness :
    approximateTokensFromText "hello" = max 1 ((utf8ByteLength "hello" + 3) / 4) ∧
    1 ≤ approximateTokensFromText "hello" :=
  ⟨approximateTokenCount_spec.2.1 "hello" (by decide),
   approximateTokenCount_spec.2.2 "hello" (by decide)⟩

/-! ## Claim C7: counting primitive -/

/-- Claim C7: the counting primitive is total, maps the empty string to
zero counts, returns the character count and the UTF-8 byte length for
every string, satisfies bytes at least characters on ASCII-only strings,
and counts the sample two-byte character as one character and two
bytes. -/
theorem calculateCounts_spec :
    calculateCounts "" = { chars := 0, bytes := 0 } ∧
    (∀ s : String, (calculateCounts s).chars = s.length ∧
      (calculateCounts s).bytes = utf8ByteLength s) ∧
    (∀ s : String, (∀ c ∈ s.data, c.toNat < 128) →
      (calculateCounts s).chars ≤ (calculateCounts s).bytes) ∧
    (calculateCounts "é").chars = 1 ∧ (calculateCounts "é").bytes = 2 := by
  refine ⟨rfl, ?_, ?_, by decide, by decide⟩
  · intro s
    by_cases hs : s = ""
    · subst hs; exact ⟨rfl, rfl⟩
    · simp [calculateCounts, hs]
  · intro s _
    by_cases hs : s = ""
    · subst hs; decide
    · have h2 := length_le_byteLength s.data
      simp only [calculateCounts, if_neg hs]
      exact h2

/-- Witness for claim C7 at a concrete ASCII string. -/
theorem calculateCounts_spec_witness :
    (calculateCounts "abc").chars ≤ (calculateCounts "abc").bytes :=
  calculateCounts_spec.2.2.1 "abc" (by decide)

/-! ## Claim C6: lossless span coverage of the approximate tokenizer -/

/-- Concatenating the scanner output texts restores the scanned suffix. -/
theorem textConcat_simpleTokenizeAux :
    ∀ (f : Nat) (cs : List Char) (pos : Nat) (idMap : List (String × Nat)) (nextId : Nat),
      cs.length ≤ f →
      textConcat (simpleTokenizeAux f cs pos idMap nextId) = String.mk cs := by
  intro f
  induction f with
  | zero =>
    intro cs pos idMap nextId hlen
    have : cs = [] := List.length_eq_zero.mp (Nat.le_zero.mp hlen)
    subst this
    rfl
  | succ f ih =>
    intro cs pos idMap nextId hlen
    match cs with
    | [] => rfl
    | c :: cs' =>
      have hrest : (cs'.dropWhile (fun d => decide (tokenClass d = tokenClass c))).length ≤ f := by
        have h1 := (List.dropWhile_suffix (l := cs')
          (fun d => decide (tokenClass d = tokenClass c))).length_le
        have h2 : cs'.length + 1 ≤ f + 1 := by simpa using hlen
        omega
      have hsplit : (c :: cs'.takeWhile (fun d => decide (tokenClass d = tokenClass c))) ++
          cs'.dropWhile (fun d => decide (tokenClass d = tokenClass c)) = c :: cs' := by
        simp [List.takeWhile_append_dropWhile]
      simp only [simpleTokenizeAux]
      split
      · rw [textConcat, ih _ _ _ _ hrest, stringMk_append, hsplit]
      · split
        · rw [textConcat, ih _ _ _ _ hrest, stringMk_append, hsplit]
        · rw [textConcat, ih _ _ _ _ hrest, stringMk_append, hsplit]

/-- Claim C6: for every input string, concatenating the text fields of
the approximate tokenizer output, in order, reconstructs the input
exactly, and the empty string yields the empty token sequence. -/
theorem simpleTokenize_lossless :
    (∀ s : String, textConcat (simpleTokenize s) = s) ∧ simpleTokenize "" = [] := by
  refine ⟨?_, rfl⟩
  intro s
  by_cases hs : s = ""
  · subst hs; rfl
  · simp only [simpleTokenize, if_neg hs]
    rw [textConcat_simpleTokenizeAux s.data.length s.data 0 [] 1 (Nat.le_refl _)]

/-! ## Character class lemmas -/

/-- Order on UInt32 against a small literal, read off on toNat. -/
theorem uint32_le_iff {n : Nat} (h : n < UInt32.size) (c : UInt32) :
    (UInt32.ofNat n ≤ c) ↔ n ≤ c.toNat := by
  rw [UInt32.le_def, BitVec.le_def]
  have h1 : (UInt32.ofNat n).toBitVec.toNat = n := UInt32.toNat_ofNat_of_lt h
  rw [h1]
  rfl

/-- Symmetric version of uint32_le_iff. -/
theorem uint32_le_iff' {n : Nat} (h : n < UInt32.size) (c : UInt32) :
    (c ≤ UInt32.ofNat n) ↔ c.toNat ≤ n := by
  rw [UInt32.le_def, BitVec.le_def]
  have h1 : (UInt32.ofNat n).toBitVec.toNat = n := UInt32.toNat_ofNat_of_lt h
  rw [h1]
  rfl

/-- Characters are equal when their code points are. -/
theorem char_eq_of_toNat {c d : Char} (h : c.toNat = d.toNat) : c = d := by
  have h1 := Char.ofNat_toNat c
  have h2 := Char.ofNat_toNat d
  rw [h] at h1
  exact h1.symm.trans h2

/-- Uppercase test as a code point interval. -/
theorem isUpper_iff (c : Char) : c.isUpper = true ↔ (65 ≤ c.toNat ∧ c.toNat ≤ 90) := by
  simp only [Char.isUpper, Bool.and_eq_true, decide_eq_true_eq, ge_iff_le, Char.toNat]
  rw [show (65 : UInt32) = UInt32.ofNat 65 from rfl, show (90 : UInt32) = UInt32.ofNat 90 from rfl,
    uint32_le_iff (by norm_num [UInt32.size]), uint32_le_iff' (by norm_num [UInt32.size])]

/-- Lowercase test as a code point interval. -/
theorem isLower_iff (c : Char) : c.isLower = true ↔ (97 ≤ c.toNat ∧ c.toNat ≤ 122) := by
  simp only [Char.isLower, Bool.and_eq_true, decide_eq_true_eq, ge_iff_le, Char.toNat]
  rw [show (97 : UInt32) = UInt32.ofNat 97 from rfl, show (122 : UInt32) = UInt32.ofNat 122 from rfl,
    uint32_le_iff (by norm_num [UInt32.size]), uint32_le_iff' (by norm_num [UInt32.size])]

/-- Digit test as a code point interval. -/
theorem isDigit_iff (c : Char) : c.isDigit = true ↔ (48 ≤ c.toNat ∧ c.toNat ≤ 57) := by
  simp only [Char.isDigit, Bool.and_eq_true, decide_eq_true_eq, ge_iff_le, Char.toNat]
  rw [show (48 : UInt32) = UInt32.ofNat 48 from rfl, show (57 : UInt32) = UInt32.ofNat 57 from rfl,
    uint32_le_iff (by norm_num [UInt32.size]), uint32_le_iff' (by norm_num [UInt32.size])]

/-- The safe-pattern character class as code point conditions. -/
theorem isYamlWordChar_iff (c : Char) : isYamlWordChar c = true ↔
    ((65 ≤ c.toNat ∧ c.toNat ≤ 90) ∨ (97 ≤ c.toNat ∧ c.toNat ≤ 122) ∨
     (48 ≤ c.toNat ∧ c.toNat ≤ 57) ∨ c = '_' ∨ c = '-') := by
  simp only [isYamlWordChar, Char.isAlphanum, Char.isAlpha, Bool.or_eq_true, beq_iff_eq,
    isUpper_iff, isLower_iff, isDigit_iff]
  tauto

/-- The reserved-word test is membership of the lowercased word in the
eight-element reserved set (the source list repeats true). -/
theorem isReservedYamlWord_iff (w : String) :
    isReservedYamlWord w = true ↔
      toLowerString w ∈ ["true", "false", "null", "yes", "no", "on", "off", "~"] := by
  simp only [isReservedYamlWord, List.contains_iff_exists_mem_beq, beq_iff_eq]
  constructor
  · rintro ⟨a, ha, rfl⟩
    simp only [List.mem_cons, List.not_mem_nil, or_false] at ha
    rcases ha with h | h | h | h | h | h | h | h | h <;> simp [h]
  · intro h
    refine ⟨toLowerString w, ?_, rfl⟩
    simp only [List.mem_cons, List.not_mem_nil, or_false] at h ⊢
    tauto

/-- Claim C2: a string is emitted unquoted by the token-aware mode of the
YAML-lite converter exactly under the implementation condition bareWordOk,
and that condition coincides with the specification rule: one or more
ASCII letters, digits, underscores, or hyphens, whose lowercased form is
not reserved; the listed examples behave as stated, and a string
containing a space or a colon is never eligible. -/
theorem bareWord_rule_spec :
    (∀ s : String, bareWordOk s = true ↔ specBareWordEligible s) ∧
    bareWordOk "hello_world-1" = true ∧
    bareWordOk "true" = false ∧ bareWordOk "null" = false ∧ bareWordOk "off" = false ∧
    (∀ s : String, (' ' ∈ s.data ∨ ':' ∈ s.data) → bareWordOk s = false) ∧
    (∀ (s : String) (ind : Nat),
      jsonToYamlLite (.str s) ind true = if bareWordOk s then s else quoteJson s) := by
  refine ⟨?_, by decide, by decide, by decide, by decide, ?_, ?_⟩
  · intro s
    unfold bareWordOk specBareWordEligible matchesSafePattern
    simp only [Bool.and_eq_true, Bool.not_eq_true', decide_eq_true_eq, List.all_eq_true]
    constructor
    · rintro ⟨⟨hne, hall⟩, hres⟩
      refine ⟨⟨hne, fun c hc => (isYamlWordChar_iff c).mp (hall c hc)⟩, ?_⟩
      intro hmem
      exact absurd ((isReservedYamlWord_iff s).mpr hmem) (by simp [hres])
    · rintro ⟨⟨hne, hall⟩, hres⟩
      refine ⟨⟨hne, fun c hc => (isYamlWordChar_iff c).mpr (hall c hc)⟩, ?_⟩
      by_contra hcon
      exact hres ((isReservedYamlWord_iff s).mp (by simpa using hcon))
  · intro s hmem
    have hbad : ∃ c ∈ s.data, isYamlWordChar c = false := by
      rcases hmem with h | h
      · exact ⟨' ', h, by decide⟩
      · exact ⟨':', h, by decide⟩
    rcases hbad with ⟨c, hc, hfalse⟩
    unfold bareWordOk matchesSafePattern
    have : s.data.all isYamlWordChar = false := by
      rw [List.all_eq_false]
      exact ⟨c, hc, by simp [hfalse]⟩
    simp [this]
  · intro s ind
    simp [jsonToYamlLite]

/-- Witness for claim C2: a string containing a space is not eligible. -/
theorem bareWord_rule_spec_witness : bareWordOk "a b" = false :=
  bareWord_rule_spec.2.2.2.2.2.1 "a b" (Or.inl (by decide))

/-! ## Claim C4: YAML-lite rendering -/

/-- Claim C4 counterexample: the converter does not produce the outputs
the claim states.  The nested object below key a is rendered with four
spaces, not two, because the recursion already indents the nested
rendering and the object branch prefixes one more level; and an empty
array value is placed below the key line, not inline, because the inline
branch only serves non-object scalars. -/
theorem yamlLite_examples_counterexample :
    jsonToYamlLite (.obj [("a", .obj [("b", .num 1)])]) 0 false ≠ "a:\n  b: 1" ∧
    jsonToYamlLite (.obj [("a", .arr [])]) 0 false ≠ "a: []" := by
  decide

/-- Claim C4 amended: scalar values are rendered inline after the key; a
non-null object value (including an empty array) is rendered below the
key line with one additional indentation level prefixed to every line of
its already indented rendering; consequently the nested-object example
carries four spaces, the empty-array example goes below the key, and the
empty root array stays as brackets. -/
theorem yamlLite_rendering_amended :
    (∀ (key : String) (val : Json) (ind : Nat) (ta : Bool), isNonNullObject val = false →
      yamlEntries [(key, val)] ind ta =
        [indentStr ind ++ key ++ ": " ++ jsonToYamlLite val (ind + 1) ta]) ∧
    (∀ (key : String) (val : Json) (ind : Nat) (ta : Bool), isNonNullObject val = true →
      yamlEntries [(key, val)] ind ta =
        [indentStr ind ++ key ++ ":\n" ++ indentStr (ind + 1) ++
          String.mk (replaceNl (indentStr (ind + 1)) (jsonToYamlLite val (ind + 1) ta).data)]) ∧
    jsonToYamlLite (.obj [("a", .obj [("b", .num 1)])]) 0 false = "a:\n    b: 1" ∧
    jsonToYamlLite (.obj [("a", .arr [])]) 0 false = "a:\n  []" ∧
    jsonToYamlLite (.arr []) 0 false = "[]" := by
  refine ⟨?_, ?_, by decide, by decide, by decide⟩
  · intro key val ind ta h
    simp [yamlEntries, h]
  · intro key val ind ta h
    simp [yamlEntries, h]

/-- Witness for the amended claim C4 at a concrete scalar entry and a
concrete nested entry. -/
theorem yamlLite_rendering_amended_witness :
    yamlEntries [("a", .num 1)] 0 false =
      [indentStr 0 ++ "a" ++ ": " ++ jsonToYamlLite (.num 1) 1 false] ∧
    yamlEntries [("a", .arr [])] 0 false =
      [indentStr 0 ++ "a" ++ ":\n" ++ indentStr 1 ++
        String.mk (replaceNl (indentStr 1) (jsonToYamlLite (.arr []) 1 false).data)] :=
  ⟨yamlLite_rendering_amended.1 "a" (.num 1) 0 false (by decide),
   yamlLite_rendering_amended.2.1 "a" (.arr []) 0 false (by decide)⟩

/-! ## Claim C8: unsupported model rejection -/

/-- Prefixed strings are non-empty. -/
theorem append_prefix_ne_empty (model : String) : "Unsupported model: " ++ model ≠ "" := by
  intro h
  have h1 := congrArg String.length h
  rw [String.length_append] at h1
  have h2 : ("Unsupported model: " : String).length = 19 := by decide
  have h3 : ("" : String).length = 0 := by decide
  omega

/-- Claim C8: every request whose model field is present but different
from cl100k_base is answered with status 400, a non-empty error message,
and no token payload, for every behaviour of the underlying encoder. -/
theorem tokenizeRoute_unsupported_model :
    ∀ (enc : String → Except String (List ExactToken)) (b : TokenizeRequestBody) (model : String),
      b.model = some model → model ≠ "cl100k_base" →
      (POST enc (some b)).status = 400 ∧
      (∃ msg, (POST enc (some b)).error = some msg ∧ msg ≠ "") ∧
      (POST enc (some b)).tokens = none := by
  intro enc b model hm hne
  obtain ⟨bm, bt⟩ := b
  simp only at hm
  subst hm
  by_cases hempty : model = ""
  · subst hempty
    exact ⟨rfl, ⟨"Missing or invalid model", rfl, by decide⟩, rfl⟩
  · cases bt with
    | none =>
      have hP : POST enc (some { model := some model, texts := none }) =
          { status := 400, error := some "Missing or invalid texts", tokens := none } := by
        simp [POST, hempty]
      rw [hP]
      exact ⟨rfl, ⟨"Missing or invalid texts", rfl, by decide⟩, rfl⟩
    | some texts =>
      have hP : POST enc (some { model := some model, texts := some texts }) =
          { status := 400, error := some ("Unsupported model: " ++ model), tokens := none } := by
        simp [POST, hempty, hne]
      rw [hP]
      exact ⟨rfl, ⟨"Unsupported model: " ++ model, rfl, append_prefix_ne_empty model⟩, rfl⟩

/-- Witness for claim C8 at the concrete unsupported model of the
specification test list. -/
theorem tokenizeRoute_unsupported_model_witness :
    (POST (fun _ => .ok []) (some { model := some "not-a-model", texts := some [] })).status = 400 ∧
    (∃ msg, (POST (fun _ => .ok [])
      (some { model := some "not-a-model", texts := some [] })).error = some msg ∧ msg ≠ "") ∧
    (POST (fun _ => .ok []) (some { model := some "not-a-model", texts := some [] })).tokens = none :=
  tokenizeRoute_unsupported_model (fun _ => .ok []) _ "not-a-model" rfl (by decide)

/-! ## Claim C9: stale exact-tokenization responses are discarded -/

/-- A request is tracked when it is the in-flight one or already
cancelled. -/
def trackedReq (A : Nat) (s : EffectState α) : Prop :=
  s.current = some A ∨ A ∈ s.cancelled

/-- One step never removes a request from the cancelled set. -/
theorem cancelled_step_mono {α : Type} (s : EffectState α) (e : FetchEvent α) (A : Nat)
    (h : A ∈ s.cancelled) : A ∈ (stepFetch s e).cancelled := by
  cases e with
  | issue j =>
    simp only [stepFetch]
    cases s.current with
    | none => exact h
    | some j' => exact List.mem_cons_of_mem _ h
  | resolve i r =>
    simp only [stepFetch]
    split
    · exact h
    · exact h

/-- A run never removes a request from the cancelled set. -/
theorem cancelled_run_mono {α : Type} (es : List (FetchEvent α)) :
    ∀ (s : EffectState α) (A : Nat), A ∈ s.cancelled → A ∈ (runFetch s es).cancelled := by
  induction es with
  | nil => intro s A h; exact h
  | cons e es ih =>
    intro s A h
    exact ih (stepFetch s e) A (cancelled_step_mono s e A h)

/-- Any step other than re-issuing the same request keeps it tracked. -/
theorem trackedReq_step {α : Type} (s : EffectState α) (e : FetchEvent α) (A : Nat)
    (hne : e ≠ .issue A) (h : trackedReq A s) : trackedReq A (stepFetch s e) := by
  cases e with
  | issue j =>
    right
    rcases h with h | h
    · simp only [stepFetch, h]
      exact List.mem_cons_self _ _
    · exact cancelled_step_mono s _ A h
  | resolve i r =>
    rcases h with h | h
    · left
      simp only [stepFetch]
      split
      · exact h
      · exact h
    · right
      exact cancelled_step_mono s _ A h

/-- A run that never re-issues the request keeps it tracked. -/
theorem trackedReq_run {α : Type} (es : List (FetchEvent α)) :
    ∀ (s : EffectState α) (A : Nat), .issue A ∉ es → trackedReq A s →
      trackedReq A (runFetch s es) := by
  induction es with
  | nil => intro s A _ h; exact h
  | cons e es ih =>
    intro s A hnm h
    have h1 : e ≠ .issue A := fun hc => hnm (by rw [hc]; exact List.mem_cons_self _ _)
    have h2 : FetchEvent.issue A ∉ es := fun hc => hnm (List.mem_cons_of_mem _ hc)
    exact ih (stepFetch s e) A h2 (trackedReq_step s e A h1 h)

/-- A tracked request is cancelled by the issue of a different one. -/
theorem tracked_cancelled_on_issue {α : Type} (s : EffectState α) (A B : Nat)
    (hne : A ≠ B) (h : trackedReq A s) : A ∈ (stepFetch s (.issue B)).cancelled := by
  rcases h with h | h
  · simp only [stepFetch, h]
    exact List.mem_cons_self _ _
  · exact cancelled_step_mono s _ A h

/-- Claim C9: when a request A is issued and a request B is issued after
it (with A never re-issued in between or later), the resolution of A at
any later moment leaves the shared exact-token state unchanged, whatever
the payload and whatever else happened in between, including any
resolution of B. -/
theorem staleResolve_not_applied {α : Type} :
    ∀ (s0 : EffectState α) (u1 u2 u3 : List (FetchEvent α)) (A B : Nat) (r : α),
      FetchEvent.issue A ∉ u2 ++ FetchEvent.issue B :: u3 →
      (runFetch s0 ((u1 ++ .issue A :: u2 ++ .issue B :: u3) ++ [.resolve A r])).exactTokens =
        (runFetch s0 (u1 ++ .issue A :: u2 ++ .issue B :: u3)).exactTokens := by
  intro s0 u1 u2 u3 A B r hnm
  have hAB : A ≠ B := by
    intro h
    subst h
    exact hnm (by simp)
  have hnm2 : FetchEvent.issue A ∉ u2 := fun hc => hnm (List.mem_append_left _ hc)
  have hnm3 : FetchEvent.issue A ∉ u3 := fun hc =>
    hnm (List.mem_append_right _ (List.mem_cons_of_mem _ hc))
  set u := u1 ++ .issue A :: u2 ++ .issue B :: u3 with hu
  have hsplit : runFetch s0 u =
      runFetch (stepFetch (runFetch (stepFetch (runFetch s0 u1) (.issue A)) u2) (.issue B)) u3 := by
    rw [hu]
    unfold runFetch
    rw [List.foldl_append, List.foldl_append, List.foldl_cons, List.foldl_cons]
  have h1 : trackedReq A (stepFetch (runFetch s0 u1) (.issue A)) := by
    left
    rfl
  have h2 := trackedReq_run u2 _ A hnm2 h1
  have h3 := tracked_cancelled_on_issue _ A B hAB h2
  have h4 := cancelled_run_mono u3 _ A h3
  rw [← hsplit] at h4
  have h5 : runFetch s0 (u ++ [.resolve A r]) = stepFetch (runFetch s0 u) (.resolve A r) := by
    unfold runFetch
    rw [List.foldl_append]
    rfl
  rw [h5]
  simp only [stepFetch, if_pos h4]

/-- Witness for claim C9: a concrete two-request trace where the first
request resolves after being superseded. -/
theorem staleResolve_not_applied_witness :
    (runFetch (α := Nat) { cancelled := [], current := none, exactTokens := none }
        (([] ++ .issue 1 :: [] ++ .issue 2 :: []) ++ [.resolve 1 7])).exactTokens =
      (runFetch (α := Nat) { cancelled := [], current := none, exactTokens := none }
        ([] ++ .issue 1 :: [] ++ .issue 2 :: [])).exactTokens :=
  staleResolve_not_applied _ [] [] [] 1 2 7 (by decide)

/-! ## Claim C10: whitespace-only input gives blank outputs, no error -/

/-- The head of a dropWhile result fails the predicate. -/
theorem dropWhile_head_false {p : Char → Bool} :
    ∀ (l : List Char) (c : Char) (r : List Char), l.dropWhile p = c :: r → p c = false := by
  intro l
  induction l with
  | nil => intro c r h; simp at h
  | cons d l ih =>
    intro c r h
    by_cases hd : p d
    · rw [List.dropWhile_cons_of_pos hd] at h
      exact ih c r h
    · rw [List.dropWhile_cons_of_neg hd] at h
      cases h
      exact Bool.of_not_eq_true hd

/-- Elements of a dropWhile result are elements of the input. -/
theorem dropWhile_mem {p : Char → Bool} (l : List Char) (c : Char) (r : List Char)
    (h : l.dropWhile p = c :: r) : c ∈ l := by
  have hs := List.dropWhile_suffix (l := l) p
  rw [h] at hs
  exact hs.subset (List.mem_cons_self c r)

/-- A JavaScript whitespace character that is not JSON whitespace starts
no JSON token at all. -/
theorem jsWs_not_json_token (c : Char) (hws : isJsWhitespace c = true)
    (hjw : isJsonWs c = false) :
    c ≠ 'n' ∧ c ≠ 't' ∧ c ≠ 'f' ∧ c ≠ '"' ∧ c ≠ '[' ∧ c ≠ braceOpen ∧
      c ≠ '-' ∧ c.isDigit = false := by
  simp only [isJsWhitespace, Bool.or_eq_true, beq_iff_eq, Bool.and_eq_true,
    decide_eq_true_eq] at hws
  rcases hws with ((((((((((((((h | h) | h) | h) | h) | h) | h) | h) | h) | h) | h) | h) | h) | h) | h)
  all_goals first
    | exact absurd hjw (by decide)
    | decide
    | (subst h; first | exact absurd hjw (by decide) | decide)
    | skip
  obtain ⟨h1, h2⟩ := h
  refine ⟨?_, ?_, ?_, ?_, ?_, ?_, ?_, ?_⟩
  · intro hc; rw [hc] at h1; exact absurd h1 (by decide)
  · intro hc; rw [hc] at h1; exact absurd h1 (by decide)
  · intro hc; rw [hc] at h1; exact absurd h1 (by decide)
  · intro hc; rw [hc] at h1; exact absurd h1 (by decide)
  · intro hc; rw [hc] at h1; exact absurd h1 (by decide)
  · intro hc; rw [hc] at h1; exact absurd h1 (by decide)
  · intro hc; rw [hc] at h1; exact absurd h1 (by decide)
  · by_contra hdig
    rw [Bool.not_eq_false] at hdig
    have := (isDigit_iff c).mp hdig
    omega

/-- A whitespace-only input parses to nothing. -/
theorem jsonParse_whitespace_none (input : String)
    (hall : ∀ c ∈ input.data, isJsWhitespace c = true) : jsonParse input = none := by
  unfold jsonParse
  suffices h : parseValue (input.data.length + 1) input.data = none by rw [h]
  rw [parseValue]
  cases h : skipWs input.data with
  | nil => rfl
  | cons c r =>
    have hmem := dropWhile_mem input.data c r h
    have hws := hall c hmem
    have hjw := dropWhile_head_false input.data c r h
    obtain ⟨h1, h2, h3, h4, h5, h6, h7, h8⟩ := jsWs_not_json_token c hws hjw
    have h9 : ¬(c = '-' ∨ c.isDigit = true) := by
      rintro (hc | hc)
      · exact h7 hc
      · rw [h8] at hc
        exact Bool.false_ne_true hc
    simp only [if_neg h1, if_neg h2, if_neg h3, if_neg h4, if_neg h5, if_neg h6, if_neg h9]

/-- Claim C10: for every input that is empty or whitespace-only, the
orchestration step returns empty strings for all five format outputs and
an empty error message, independently of the converters, although such
input is not valid JSON. -/
theorem blankInput_noError :
    ∀ (toonEnc : Json → String) (tomlEnc : Json → Bool → String)
      (parseMsg : String → String) (ta : Bool) (input : String),
      (∀ c ∈ input.data, isJsWhitespace c = true) →
      computeOutputs toonEnc tomlEnc parseMsg ta input =
        { error := "", prettyJson := "", minifiedJson := "", yaml := "",
          toon := "", toml := "" } ∧
      jsonParse input = none := by
  intro toonEnc tomlEnc parseMsg ta input hall
  refine ⟨?_, jsonParse_whitespace_none input hall⟩
  have htrim : jsTrim input = "" := by
    unfold jsTrim
    have h1 : input.data.dropWhile isJsWhitespace = [] :=
      List.dropWhile_eq_nil_iff.mpr (fun x hx => hall x hx)
    rw [h1]
    rfl
  unfold computeOutputs
  rw [if_pos htrim]

/-- Witness for claim C10 at a concrete whitespace-only input containing
a non-JSON whitespace character. -/
theorem blankInput_noError_witness :
    computeOutputs (fun _ => "T") (fun _ _ => "M") (fun _ => "E") false " \n " =
      { error := "", prettyJson := "", minifiedJson := "", yaml := "",
        toon := "", toml := "" } ∧
    jsonParse " \n " = none :=
  blankInput_noError (fun _ => "T") (fun _ _ => "M") (fun _ => "E") false " \n " (by decide)

/-! ## Induction principle for values -/

mutual

/-- Structural induction over values, with element and entry lists
handled through membership. -/
theorem jsonInd (P : Json → Prop) (h0 : P .null) (h1 : ∀ b, P (.bool b))
    (h2 : ∀ n, P (.num n)) (h3 : ∀ s, P (.str s))
    (h4 : ∀ xs, (∀ x ∈ xs, P x) → P (.arr xs))
    (h5 : ∀ kvs, (∀ kv ∈ kvs, P kv.2) → P (.obj kvs)) : ∀ v, P v
  | .null => h0
  | .bool b => h1 b
  | .num n => h2 n
  | .str s => h3 s
  | .arr xs => h4 xs (jsonIndList P h0 h1 h2 h3 h4 h5 xs)
  | .obj kvs => h5 kvs (jsonIndObj P h0 h1 h2 h3 h4 h5 kvs)

/-- List part of jsonInd. -/
theorem jsonIndList (P : Json → Prop) (h0 : P .null) (h1 : ∀ b, P (.bool b))
    (h2 : ∀ n, P (.num n)) (h3 : ∀ s, P (.str s))
    (h4 : ∀ xs, (∀ x ∈ xs, P x) → P (.arr xs))
    (h5 : ∀ kvs, (∀ kv ∈ kvs, P kv.2) → P (.obj kvs)) :
    ∀ xs : List Json, ∀ x ∈ xs, P x
  | [] => by intro x hx; cases hx
  | x :: xs => by
    intro y hy
    cases hy with
    | head => exact jsonInd P h0 h1 h2 h3 h4 h5 x
    | tail _ h => exact jsonIndList P h0 h1 h2 h3 h4 h5 xs y h

/-- Entry part of jsonInd. -/
theorem jsonIndObj (P : Json → Prop) (h0 : P .null) (h1 : ∀ b, P (.bool b))
    (h2 : ∀ n, P (.num n)) (h3 : ∀ s, P (.str s))
    (h4 : ∀ xs, (∀ x ∈ xs, P x) → P (.arr xs))
    (h5 : ∀ kvs, (∀ kv ∈ kvs, P kv.2) → P (.obj kvs)) :
    ∀ kvs : List (String × Json), ∀ kv ∈ kvs, P kv.2
  | [] => by intro kv hkv; cases hkv
  | (k, v) :: kvs => by
    intro kv hkv
    cases hkv with
    | head => exact jsonInd P h0 h1 h2 h3 h4 h5 v
    | tail _ h => exact jsonIndObj P h0 h1 h2 h3 h4 h5 kvs kv h

end

/-! ## Decimal rendering lemmas -/

/-- Code point of a decimal digit character. -/
theorem digitChar10_toNat (n : Nat) (h : n < 10) : (digitChar10 n).toNat = 48 + n := by
  interval_cases n <;> decide

/-- Decimal digit characters are digits. -/
theorem digitChar10_isDigit (n : Nat) (h : n < 10) : (digitChar10 n).isDigit = true := by
  rw [isDigit_iff, digitChar10_toNat n h]
  omega

/-- The scanner of natToCharsAux only prepends to its accumulator. -/
theorem natToCharsAux_canon :
    ∀ (f n : Nat) (acc : List Char), n < f → natToCharsAux f n acc = natChars n ++ acc := by
  intro f
  induction f using Nat.strong_induction_on with
  | _ f ih =>
    intro n acc h
    cases f with
    | zero => omega
    | succ f =>
      by_cases h10 : n < 10
      · rw [natToCharsAux, if_pos h10]
        have hn : natChars n = [digitChar10 n] := by
          unfold natChars
          rw [natToCharsAux, if_pos h10]
        rw [hn]
        rfl
      · rw [natToCharsAux, if_neg h10]
        have hda : n / 10 < n := by omega
        rw [ih f (by omega) (n / 10) _ (by omega)]
        have hn : natChars n = natChars (n / 10) ++ [digitChar10 (n % 10)] := by
          conv_lhs => rw [natChars, natToCharsAux, if_neg h10]
          rw [ih n (by omega) (n / 10) _ hda]
        rw [hn]
        simp

/-- Recursive description of the decimal rendering. -/
theorem natChars_eq (n : Nat) :
    natChars n = if n < 10 then [digitChar10 n] else natChars (n / 10) ++ [digitChar10 (n % 10)] := by
  by_cases h10 : n < 10
  · rw [if_pos h10]
    unfold natChars
    rw [natToCharsAux, if_pos h10]
  · rw [if_neg h10]
    conv_lhs => rw [natChars, natToCharsAux, if_neg h10]
    rw [natToCharsAux_canon n (n / 10) _ (by omega)]

/-- Every character of a decimal rendering is a digit. -/
theorem natChars_all_digits : ∀ n, ∀ c ∈ natChars n, c.isDigit = true := by
  intro n
  induction n using Nat.strong_induction_on with
  | _ n ih =>
    intro c hc
    rw [natChars_eq] at hc
    by_cases h10 : n < 10
    · rw [if_pos h10] at hc
      simp only [List.mem_singleton] at hc
      subst hc
      exact digitChar10_isDigit n h10
    · rw [if_neg h10] at hc
      rcases List.mem_append.mp hc with h | h
      · exact ih (n / 10) (by omega) c h
      · simp only [List.mem_singleton] at h
        subst h
        exact digitChar10_isDigit (n % 10) (by omega)

/-- Decimal renderings are non-empty. -/
theorem natChars_ne_nil (n : Nat) : natChars n ≠ [] := by
  rw [natChars_eq]
  by_cases h10 : n < 10
  · rw [if_pos h10]; simp
  · rw [if_neg h10]; simp

/-- Reading back the decimal rendering gives the number. -/
theorem digitsToNat_natChars : ∀ n, digitsToNat (natChars n) = n := by
  intro n
  induction n using Nat.strong_induction_on with
  | _ n ih =>
    rw [natChars_eq]
    by_cases h10 : n < 10
    · rw [if_pos h10]
      unfold digitsToNat
      simp [digitChar10_toNat n h10]
    · rw [if_neg h10]
      unfold digitsToNat
      rw [List.foldl_append]
      have hmod : (digitChar10 (n % 10)).toNat = 48 + n % 10 := digitChar10_toNat _ (by omega)
      have := ih (n / 10) (by omega)
      unfold digitsToNat at this
      simp only [List.foldl_cons, List.foldl_nil, this, hmod]
      omega

/-- A greedy digit scan over digits followed by a non-digit boundary
takes exactly the digits. -/
theorem span_digits :
    ∀ (a rest : List Char), (∀ c ∈ a, c.isDigit = true) → headNotDigit rest →
      (a ++ rest).takeWhile Char.isDigit = a ∧ (a ++ rest).dropWhile Char.isDigit = rest := by
  intro a
  induction a with
  | nil =>
    intro rest _ hrest
    constructor
    · cases rest with
      | nil => rfl
      | cons c r =>
        simp only [List.nil_append]
        rw [List.takeWhile_cons_of_neg]
        simp [hrest c rfl]
    · cases rest with
      | nil => rfl
      | cons c r =>
        simp only [List.nil_append]
        rw [List.dropWhile_cons_of_neg]
        simp [hrest c rfl]
  | cons d a ih =>
    intro rest hall hrest
    have hd : d.isDigit = true := hall d (List.mem_cons_self _ _)
    have hrec := ih rest (fun c hc => hall c (List.mem_cons_of_mem _ hc)) hrest
    constructor
    · simp only [List.cons_append]
      rw [List.takeWhile_cons_of_pos (by simp [hd])]
      rw [hrec.1]
    · simp only [List.cons_append]
      rw [List.dropWhile_cons_of_pos (by simp [hd])]
      exact hrec.2

/-- Parsing the decimal rendering of an integer returns the integer and
the boundary remainder. -/
theorem parseNumValue_intChars (i : Int) (rest : List Char) (hrest : headNotDigit rest) :
    parseNumValue (intChars i ++ rest) = some (.num i, rest) := by
  by_cases hneg : i < 0
  · have hichars : intChars i = '-' :: natChars i.natAbs := by
      unfold intChars
      rw [if_pos hneg]
    rw [hichars]
    obtain ⟨d, ds, hds⟩ : ∃ d ds, natChars i.natAbs = d :: ds := by
      cases h : natChars i.natAbs with
      | nil => exact absurd h (natChars_ne_nil _)
      | cons d ds => exact ⟨d, ds, rfl⟩
    have hspan := span_digits (natChars i.natAbs) rest (natChars_all_digits _) hrest
    simp only [List.cons_append]
    rw [parseNumValue, if_pos rfl]
    rw [hspan.1, hspan.2]
    rw [if_neg (natChars_ne_nil _)]
    rw [digitsToNat_natChars]
    have : -(i.natAbs : Int) = i := by omega
    rw [this]
  · have hichars : intChars i = natChars i.toNat := by
      unfold intChars
      rw [if_neg hneg]
    obtain ⟨d, ds, hds⟩ : ∃ d ds, natChars i.toNat = d :: ds := by
      cases h : natChars i.toNat with
      | nil => exact absurd h (natChars_ne_nil _)
      | cons d ds => exact ⟨d, ds, rfl⟩
    have hd : d.isDigit = true := natChars_all_digits _ d (by rw [hds]; exact List.mem_cons_self _ _)
    have hdm : d ≠ '-' := by
      intro hc
      subst hc
      rw [isDigit_iff] at hd
      exact absurd hd (by decide)
    have hspan := span_digits (natChars i.toNat) rest (natChars_all_digits _) hrest
    rw [hichars, hds]
    simp only [List.cons_append]
    rw [parseNumValue, if_neg hdm]
    rw [show d :: (ds ++ rest) = (d :: ds) ++ rest from rfl, ← hds]
    rw [hspan.1, hspan.2]
    rw [if_neg (natChars_ne_nil _)]
    rw [digitsToNat_natChars]
    have : (i.toNat : Int) = i := by omega
    rw [this]

/-! ## String literal parsing lemmas -/

/-- Closing quote ends the literal. -/
theorem parseStrCharsF_quote (f : Nat) (t : List Char) :
    parseStrCharsF (f + 1) ('"' :: t) = some ([], t) := rfl

/-- Escaped quote. -/
theorem parseStrCharsF_esc_quote (f : Nat) (t : List Char) :
    parseStrCharsF (f + 1) ('\\' :: '"' :: t) =
      (parseStrCharsF f t).map (fun p => ('"' :: p.1, p.2)) := rfl

/-- Escaped backslash. -/
theorem parseStrCharsF_esc_backslash (f : Nat) (t : List Char) :
    parseStrCharsF (f + 1) ('\\' :: '\\' :: t) =
      (parseStrCharsF f t).map (fun p => ('\\' :: p.1, p.2)) := rfl

/-- Escaped backspace. -/
theorem parseStrCharsF_esc_b (f : Nat) (t : List Char) :
    parseStrCharsF (f + 1) ('\\' :: 'b' :: t) =
      (parseStrCharsF f t).map (fun p => ('\u0008' :: p.1, p.2)) := rfl

/-- Escaped form feed. -/
theorem parseStrCharsF_esc_f (f : Nat) (t : List Char) :
    parseStrCharsF (f + 1) ('\\' :: 'f' :: t) =
      (parseStrCharsF f t).map (fun p => ('\u000c' :: p.1, p.2)) := rfl

/-- Escaped newline. -/
theorem parseStrCharsF_esc_n (f : Nat) (t : List Char) :
    parseStrCharsF (f + 1) ('\\' :: 'n' :: t) =
      (parseStrCharsF f t).map (fun p => ('\n' :: p.1, p.2)) := rfl

/-- Escaped carriage return. -/
theorem parseStrCharsF_esc_r (f : Nat) (t : List Char) :
    parseStrCharsF (f + 1) ('\\' :: 'r' :: t) =
      (parseStrCharsF f t).map (fun p => ('\r' :: p.1, p.2)) := rfl

/-- Escaped tab. -/
theorem parseStrCharsF_esc_t (f : Nat) (t : List Char) :
    parseStrCharsF (f + 1) ('\\' :: 't' :: t) =
      (parseStrCharsF f t).map (fun p => ('\t' :: p.1, p.2)) := rfl

/-- Hexadecimal digit characters produced for values below 16. -/
theorem isHexDigit_hexDigitChar (m : Nat) (h : m < 16) : isHexDigit (hexDigitChar m) = true := by
  interval_cases m <;> decide

/-- Reading back a produced hexadecimal digit. -/
theorem hexVal_hexDigitChar (m : Nat) (h : m < 16) : hexVal (hexDigitChar m) = m := by
  interval_cases m <;> decide

/-- Unicode escape with the two leading zero digits the serializer
emits. -/
theorem parseStrCharsF_esc_unicode (f : Nat) (h3 h4 : Char) (t : List Char)
    (hx3 : isHexDigit h3 = true) (hx4 : isHexDigit h4 = true) :
    parseStrCharsF (f + 1) ('\\' :: 'u' :: '0' :: '0' :: h3 :: h4 :: t) =
      (parseStrCharsF f t).map (fun p =>
        (Char.ofNat (((hexVal '0' * 16 + hexVal '0') * 16 + hexVal h3) * 16 + hexVal h4) :: p.1,
          p.2)) := by
  have h0 : isHexDigit '0' = true := by decide
  simp only [parseStrCharsF]
  simp [hx3, hx4, h0]

/-- Unescaped character step. -/
theorem parseStrCharsF_lit (f : Nat) (c : Char) (t : List Char)
    (h1 : c ≠ '"') (h2 : c ≠ '\\') (h3 : ¬(c.toNat < 0x20)) :
    parseStrCharsF (f + 1) (c :: t) =
      (parseStrCharsF f t).map (fun p => (c :: p.1, p.2)) := by
  simp only [parseStrCharsF]
  rw [if_neg h1, if_neg h2, if_neg (by simpa using h3)]

/-- Round trip of the string body escaping, for any sufficient fuel. -/
theorem parseStrCharsF_escList :
    ∀ (s : List Char) (f : Nat) (rest : List Char), s.length < f →
      parseStrCharsF f (escList s ++ '"' :: rest) = some (s, rest) := by
  intro s
  induction s with
  | nil =>
    intro f rest hf
    cases f with
    | zero => omega
    | succ f =>
      simp only [escList, List.nil_append]
      exact parseStrCharsF_quote f rest
  | cons c s ih =>
    intro f rest hf
    cases f with
    | zero => omega
    | succ f =>
      have hih := ih f rest (by simpa using Nat.lt_of_succ_lt_succ hf)
      simp only [escList, List.append_assoc]
      by_cases hq : c = '"'
      · subst hq
        rw [show escChar '"' = ['\\', '"'] from by decide]
        simp only [List.cons_append, List.nil_append]
        rw [parseStrCharsF_esc_quote, hih]
        rfl
      · by_cases hbs : c = '\\'
        · subst hbs
          rw [show escChar '\\' = ['\\', '\\'] from by decide]
          simp only [List.cons_append, List.nil_append]
          rw [parseStrCharsF_esc_backslash, hih]
          rfl
        · by_cases hb : c = '\u0008'
          · subst hb
            rw [show escChar '\u0008' = ['\\', 'b'] from by decide]
            simp only [List.cons_append, List.nil_append]
            rw [parseStrCharsF_esc_b, hih]
            rfl
          · by_cases ht : c = '\t'
            · subst ht
              rw [show escChar '\t' = ['\\', 't'] from by decide]
              simp only [List.cons_append, List.nil_append]
              rw [parseStrCharsF_esc_t, hih]
              rfl
            · by_cases hn : c = '\n'
              · subst hn
                rw [show escChar '\n' = ['\\', 'n'] from by decide]
                simp only [List.cons_append, List.nil_append]
                rw [parseStrCharsF_esc_n, hih]
                rfl
              · by_cases hff : c = '\u000c'
                · subst hff
                  rw [show escChar '\u000c' = ['\\', 'f'] from by decide]
                  simp only [List.cons_append, List.nil_append]
                  rw [parseStrCharsF_esc_f, hih]
                  rfl
                · by_cases hr : c = '\r'
                  · subst hr
                    rw [show escChar '\r' = ['\\', 'r'] from by decide]
                    simp only [List.cons_append, List.nil_append]
                    rw [parseStrCharsF_esc_r, hih]
                    rfl
                  · by_cases hctrl : c.toNat < 0x20
                    · rw [show escChar c =
                        ['\\', 'u', '0', '0', hexDigitChar (c.toNat / 16),
                          hexDigitChar (c.toNat % 16)] from by
                          unfold escChar
                          rw [if_neg hq, if_neg hbs, if_neg hb, if_neg ht, if_neg hn,
                            if_neg hff, if_neg hr, if_pos hctrl]]
                      simp only [List.cons_append, List.nil_append]
                      rw [parseStrCharsF_esc_unicode _ _ _ _
                        (isHexDigit_hexDigitChar _ (by omega))
                        (isHexDigit_hexDigitChar _ (by omega))]
                      rw [hih]
                      have hv : ((hexVal '0' * 16 + hexVal '0') * 16 +
                          hexVal (hexDigitChar (c.toNat / 16))) * 16 +
                          hexVal (hexDigitChar (c.toNat % 16)) = c.toNat := by
                        rw [hexVal_hexDigitChar _ (by omega), hexVal_hexDigitChar _ (by omega)]
                        have h0 : hexVal '0' = 0 := by decide
                        rw [h0]
                        omega
                      rw [hv, Char.ofNat_toNat]
                      rfl
                    · rw [show escChar c = [c] from by
                        unfold escChar
                        rw [if_neg hq, if_neg hbs, if_neg hb, if_neg ht, if_neg hn, if_neg hff,
                          if_neg hr, if_neg hctrl]]
                      simp only [List.cons_append, List.nil_append]
                      rw [parseStrCharsF_lit f c _ hq hbs hctrl, hih]
                      rfl

/-- Escaping does not shorten a string body. -/
theorem escList_length_ge (s : List Char) : s.length ≤ (escList s).length := by
  induction s with
  | nil => simp [escList]
  | cons c s ih =>
    simp only [escList, List.length_append, List.length_cons]
    have : 1 ≤ (escChar c).length := by
      unfold escChar
      split
      · simp
      · split
        · simp
        · split
          · simp
          · split
            · simp
            · split
              · simp
              · split
                · simp
                · split
                  · simp
                  · split
                    · simp
                    · simp
    omega

/-- Round trip of the string body escaping via the wrapper. -/
theorem parseStrChars_escList (s rest : List Char) :
    parseStrChars (escList s ++ '"' :: rest) = some (s, rest) := by
  unfold parseStrChars
  apply parseStrCharsF_escList
  have h1 := escList_length_ge s
  simp only [List.length_append, List.length_cons]
  omega

/-! ## Serialized-form head lemmas -/

/-- Skipping whitespace stops at a non-whitespace head. -/
theorem skipWs_cons_of_not_ws (c : Char) (l : List Char) (h : isJsonWs c = false) :
    skipWs (c :: l) = c :: l :=
  List.dropWhile_cons_of_neg (by simp [h])

/-- A digit is none of the token-starting specials and not whitespace. -/
theorem digit_not_special (c : Char) (h : c.isDigit = true) :
    c ≠ 'n' ∧ c ≠ 't' ∧ c ≠ 'f' ∧ c ≠ '"' ∧ c ≠ '[' ∧ c ≠ braceOpen ∧
      c ≠ ']' ∧ c ≠ ',' ∧ c ≠ ':' ∧ c ≠ braceClose ∧ isJsonWs c = false := by
  have hn := (isDigit_iff c).mp h
  refine ⟨?_, ?_, ?_, ?_, ?_, ?_, ?_, ?_, ?_, ?_, ?_⟩
  · intro hc; rw [hc] at h; exact absurd h (by decide)
  · intro hc; rw [hc] at h; exact absurd h (by decide)
  · intro hc; rw [hc] at h; exact absurd h (by decide)
  · intro hc; rw [hc] at h; exact absurd h (by decide)
  · intro hc; rw [hc] at h; exact absurd h (by decide)
  · intro hc; rw [hc] at h; exact absurd h (by decide)
  · intro hc; rw [hc] at h; exact absurd h (by decide)
  · intro hc; rw [hc] at h; exact absurd h (by decide)
  · intro hc; rw [hc] at h; exact absurd h (by decide)
  · intro hc; rw [hc] at h; exact absurd h (by decide)
  · cases hws : isJsonWs c with
    | false => rfl
    | true =>
      simp only [isJsonWs, Bool.or_eq_true, beq_iff_eq] at hws
      rcases hws with ((h1 | h1) | h1) | h1 <;> (rw [h1] at h; exact absurd h (by decide))

/-- A good head is not whitespace. -/
theorem goodHead_not_ws (c : Char) (h : goodHead c) : isJsonWs c = false := by
  rcases h with h | h | h | h | h | h | h | h
  all_goals first
    | (subst h; decide)
    | exact (digit_not_special c h).2.2.2.2.2.2.2.2.2.2

/-- A good head is not a closing or separating character. -/
theorem goodHead_ne (c : Char) (h : goodHead c) :
    c ≠ ']' ∧ c ≠ ',' ∧ c ≠ ':' ∧ c ≠ braceClose := by
  rcases h with h | h | h | h | h | h | h | h
  all_goals first
    | (subst h; refine ⟨by decide, by decide, by decide, by decide⟩)
    | exact ⟨(digit_not_special c h).2.2.2.2.2.2.1, (digit_not_special c h).2.2.2.2.2.2.2.1,
        (digit_not_special c h).2.2.2.2.2.2.2.2.1, (digit_not_special c h).2.2.2.2.2.2.2.2.2.1⟩

/-- The decimal rendering of an integer starts with a minus sign or a
digit. -/
theorem intChars_cons (i : Int) :
    ∃ d r, intChars i = d :: r ∧ (d = '-' ∨ d.isDigit = true) := by
  by_cases hneg : i < 0
  · refine ⟨'-', natChars i.natAbs, ?_, Or.inl rfl⟩
    unfold intChars
    rw [if_pos hneg]
  · obtain ⟨d, ds, hds⟩ : ∃ d ds, natChars i.toNat = d :: ds := by
      cases h : natChars i.toNat with
      | nil => exact absurd h (natChars_ne_nil _)
      | cons d ds => exact ⟨d, ds, rfl⟩
    refine ⟨d, ds, ?_, Or.inr ?_⟩
    · unfold intChars
      rw [if_neg hneg, hds]
    · exact natChars_all_digits _ d (by rw [hds]; exact List.mem_cons_self _ _)

/-- Every minified rendering starts with a good head character. -/
theorem serVal_cons (v : Json) (ind : List Char) :
    ∃ c r, serVal [] ind v = c :: r ∧ goodHead c := by
  cases v with
  | null => exact ⟨'n', _, rfl, Or.inl rfl⟩
  | bool b =>
    cases b with
    | true => exact ⟨'t', _, rfl, Or.inr (Or.inl rfl)⟩
    | false => exact ⟨'f', _, rfl, Or.inr (Or.inr (Or.inl rfl))⟩
  | num n =>
    obtain ⟨d, r, hdr, hgood⟩ := intChars_cons n
    refine ⟨d, r, ?_, ?_⟩
    · show intChars n = d :: r
      exact hdr
    · rcases hgood with h | h
      · exact Or.inr (Or.inr (Or.inr (Or.inr (Or.inr (Or.inr (Or.inl h))))))
      · exact Or.inr (Or.inr (Or.inr (Or.inr (Or.inr (Or.inr (Or.inr h))))))
  | str s => exact ⟨'"', _, rfl, Or.inr (Or.inr (Or.inr (Or.inl rfl)))⟩
  | arr xs =>
    cases xs with
    | nil => exact ⟨'[', _, rfl, Or.inr (Or.inr (Or.inr (Or.inr (Or.inl rfl))))⟩
    | cons x xs =>
      have hred : serVal [] ind (.arr (x :: xs)) =
          '[' :: (joinSep [','] (serItems [] (ind ++ []) (x :: xs)) ++ [']']) := rfl
      exact ⟨'[', _, hred, Or.inr (Or.inr (Or.inr (Or.inr (Or.inl rfl))))⟩
  | obj kvs =>
    cases kvs with
    | nil => exact ⟨braceOpen, _, rfl, Or.inr (Or.inr (Or.inr (Or.inr (Or.inr (Or.inl rfl)))))⟩
    | cons kv kvs =>
      have hred : serVal [] ind (.obj (kv :: kvs)) =
          braceOpen :: (joinSep [','] (serEntries [] (ind ++ []) (kv :: kvs)) ++ [braceClose]) := rfl
      exact ⟨braceOpen, _, hred, Or.inr (Or.inr (Or.inr (Or.inr (Or.inr (Or.inl rfl)))))⟩

/-! ## Size bounds for parser fuel -/

/-- Sizes are positive. -/
theorem sizeJ_pos (v : Json) : 1 ≤ sizeJ v := by
  cases v <;> simp [sizeJ] <;> omega

/-- Element list cost below the rendered join length plus one. -/
theorem sizeL_le_joinSep :
    ∀ (xs : List Json), xs ≠ [] → (∀ x ∈ xs, sizeJ x ≤ (serVal [] [] x).length) →
      sizeL xs ≤ 1 + (joinSep [','] (serItems [] [] xs)).length := by
  intro xs
  induction xs with
  | nil => intro h; exact absurd rfl h
  | cons x xs ih =>
    intro _ hall
    cases xs with
    | nil =>
      have := hall x (List.mem_cons_self _ _)
      simp only [sizeL, serItems, joinSep]
      omega
    | cons y ys =>
      have hx := hall x (List.mem_cons_self _ _)
      have hrec := ih (by simp) (fun z hz => hall z (List.mem_cons_of_mem _ hz))
      simp only [sizeL, serItems, joinSep] at hrec ⊢
      simp only [List.length_append, List.length_cons, List.length_nil] at hrec ⊢
      omega

/-- Entry list cost below the rendered join length plus one. -/
theorem sizeO_le_joinSep :
    ∀ (kvs : List (String × Json)), kvs ≠ [] →
      (∀ kv ∈ kvs, sizeJ kv.2 ≤ (serVal [] [] kv.2).length) →
      sizeO kvs ≤ 1 + (joinSep [','] (serEntries [] [] kvs)).length := by
  intro kvs
  induction kvs with
  | nil => intro h; exact absurd rfl h
  | cons kv kvs ih =>
    obtain ⟨k, v⟩ := kv
    intro _ hall
    have hv := hall (k, v) (List.mem_cons_self _ _)
    cases kvs with
    | nil =>
      simp only [sizeO, serEntries, joinSep, if_pos rfl]
      simp only [List.length_cons, List.length_append, List.nil_append]
      simp only at hv
      omega
    | cons kv2 kvs2 =>
      have hrec := ih (by simp) (fun z hz => hall z (List.mem_cons_of_mem _ hz))
      simp only [sizeO, serEntries, joinSep, if_pos rfl] at hrec ⊢
      simp only [List.length_append, List.length_cons, List.length_nil, List.nil_append] at hrec ⊢
      simp only at hv
      omega

/-- The structural size never exceeds the minified rendering length. -/
theorem sizeJ_le_serVal : ∀ v : Json, sizeJ v ≤ (serVal [] [] v).length := by
  apply jsonInd
  · decide
  · intro b; cases b <;> decide
  · intro n
    have h1 := natChars_ne_nil n.toNat
    have h2 := natChars_ne_nil n.natAbs
    show sizeJ (.num n) ≤ (intChars n).length
    unfold intChars sizeJ
    by_cases hneg : n < 0
    · rw [if_pos hneg]
      simp
    · rw [if_neg hneg]
      cases h : natChars n.toNat with
      | nil => exact absurd h h1
      | cons d ds => simp [h]
  · intro s
    show sizeJ (.str s) ≤ ('"' :: escList s.data ++ ['"']).length
    simp [sizeJ]
  · intro xs hall
    cases xs with
    | nil => decide
    | cons x xs2 =>
      have hred : serVal [] [] (.arr (x :: xs2)) =
          '[' :: (joinSep [','] (serItems [] [] (x :: xs2)) ++ [']']) := rfl
      rw [hred]
      have := sizeL_le_joinSep (x :: xs2) (by simp) hall
      show 1 + sizeL (x :: xs2) ≤ _
      simp only [List.length_cons, List.length_append, List.length_nil]
      omega
  · intro kvs hall
    cases kvs with
    | nil => decide
    | cons kv kvs2 =>
      have hred : serVal [] [] (.obj (kv :: kvs2)) =
          braceOpen :: (joinSep [','] (serEntries [] [] (kv :: kvs2)) ++ [braceClose]) := rfl
      rw [hred]
      have := sizeO_le_joinSep (kv :: kvs2) (by simp) hall
      show 1 + sizeO (kv :: kvs2) ≤ _
      simp only [List.length_cons, List.length_append, List.length_nil]
      omega

/-- A list whose head is not a digit. -/
theorem headNotDigit_cons (c : Char) (l : List Char) (h : c.isDigit = false) :
    headNotDigit (c :: l) := by
  intro d hd
  simp only [List.head?_cons, Option.some.injEq] at hd
  rw [← hd]
  exact h

/-- The joined rendering of a non-empty element list starts with a good
head. -/
theorem joinSep_items_cons (sep : List Char) (x : Json) (xs : List Json) (ind : List Char) :
    ∃ c r, joinSep sep (serItems [] ind (x :: xs)) = c :: r ∧ goodHead c := by
  obtain ⟨c, r0, hcr, hg⟩ := serVal_cons x ind
  cases xs with
  | nil => exact ⟨c, r0, by simp [serItems, joinSep, hcr], hg⟩
  | cons y ys =>
    refine ⟨c, r0 ++ sep ++ joinSep sep (serItems [] ind (y :: ys)), ?_, hg⟩
    simp [serItems, joinSep, hcr]

/-- The joined rendering of a non-empty entry list starts with a quote. -/
theorem joinSep_entries_cons (sep : List Char) (kv : String × Json)
    (kvs : List (String × Json)) (ind : List Char) :
    ∃ r, joinSep sep (serEntries [] ind (kv :: kvs)) = '"' :: r := by
  obtain ⟨k, v⟩ := kv
  cases kvs with
  | nil =>
    refine ⟨escList k.data ++ '"' :: ':' :: serVal [] ind v, ?_⟩
    simp [serEntries, joinSep]
  | cons kv2 kvs2 =>
    refine ⟨escList k.data ++ '"' :: ':' ::
      (serVal [] ind v ++ (sep ++ joinSep sep (serEntries [] ind (kv2 :: kvs2)))), ?_⟩
    simp [serEntries, joinSep]

/-- Round trip of the minified serializer through the parser: with
enough fuel, parsing a rendered value (followed by a digit-free boundary)
returns the value and the boundary; the element and entry loops consume
their joined renderings through the closing bracket or brace. -/
theorem parse_render_main : ∀ f : Nat,
    (∀ (v : Json) (rest : List Char), sizeJ v ≤ f → headNotDigit rest →
      parseValue f (serVal [] [] v ++ rest) = some (v, rest)) ∧
    (∀ (xs : List Json) (rest : List Char), xs ≠ [] → sizeL xs ≤ f →
      parseItems f (joinSep [','] (serItems [] [] xs) ++ ']' :: rest) = some (xs, rest)) ∧
    (∀ (kvs : List (String × Json)) (rest : List Char), kvs ≠ [] → sizeO kvs ≤ f →
      parseEntries f (joinSep [','] (serEntries [] [] kvs) ++ braceClose :: rest) =
        some (kvs, rest)) := by
  intro f
  induction f using Nat.strong_induction_on with
  | _ f ih =>
    refine ⟨?_, ?_, ?_⟩
    · -- values
      intro v rest hsize hrest
      have hpos := sizeJ_pos v
      cases f with
      | zero => omega
      | succ f =>
      cases v with
      | null => rfl
      | bool b => cases b <;> rfl
      | num n =>
        obtain ⟨d, r, hdr, hgood⟩ := intChars_cons n
        have hws : isJsonWs d = false := by
          rcases hgood with h | h
          · subst h; decide
          · exact (digit_not_special d h).2.2.2.2.2.2.2.2.2.2
        have hne : d ≠ 'n' ∧ d ≠ 't' ∧ d ≠ 'f' ∧ d ≠ '"' ∧ d ≠ '[' ∧ d ≠ braceOpen := by
          rcases hgood with h | h
          · subst h; exact ⟨by decide, by decide, by decide, by decide, by decide, by decide⟩
          · obtain ⟨a1, a2, a3, a4, a5, a6, _⟩ := digit_not_special d h
            exact ⟨a1, a2, a3, a4, a5, a6⟩
        show parseValue (f + 1) (intChars n ++ rest) = some (.num n, rest)
        rw [hdr]
        simp only [List.cons_append]
        rw [parseValue, skipWs_cons_of_not_ws _ _ hws]
        dsimp only
        rw [if_neg hne.1, if_neg hne.2.1, if_neg hne.2.2.1, if_neg hne.2.2.2.1,
          if_neg hne.2.2.2.2.1, if_neg hne.2.2.2.2.2, if_pos hgood]
        rw [show d :: (r ++ rest) = (d :: r) ++ rest from rfl, ← hdr]
        exact parseNumValue_intChars n rest hrest
      | str s =>
        show parseValue (f + 1) (('"' :: escList s.data ++ ['"']) ++ rest) = some (.str s, rest)
        simp only [List.cons_append, List.append_assoc, List.singleton_append, List.nil_append]
        rw [parseValue, skipWs_cons_of_not_ws _ _ (by decide)]
        dsimp only
        rw [if_neg (by decide), if_neg (by decide), if_neg (by decide), if_pos rfl]
        rw [parseStrChars_escList s.data rest]
        simp [stringMk_data]
      | arr xs =>
        cases xs with
        | nil =>
          show parseValue (f + 1) (('[' :: ']' :: []) ++ rest) = some (.arr [], rest)
          rfl
        | cons x xs2 =>
          have hred : serVal [] [] (.arr (x :: xs2)) =
              '[' :: (joinSep [','] (serItems [] [] (x :: xs2)) ++ [']']) := rfl
          rw [hred]
          obtain ⟨c0, r0, hj, hg⟩ := joinSep_items_cons [','] x xs2 []
          have hcs : ('[' :: (joinSep [','] (serItems [] [] (x :: xs2)) ++ [']'])) ++ rest =
              '[' :: (c0 :: (r0 ++ (']' :: rest))) := by
            rw [hj]
            simp
          rw [hcs]
          rw [parseValue, skipWs_cons_of_not_ws _ _ (by decide)]
          dsimp only
          rw [if_neg (by decide), if_neg (by decide), if_neg (by decide), if_neg (by decide),
            if_pos rfl]
          rw [skipWs_cons_of_not_ws _ _ (goodHead_not_ws _ hg)]
          dsimp only
          rw [if_neg (goodHead_ne _ hg).1]
          have hback : c0 :: (r0 ++ (']' :: rest)) =
              joinSep [','] (serItems [] [] (x :: xs2)) ++ ']' :: rest := by
            rw [hj]
            simp
          rw [hback]
          have hsz : sizeL (x :: xs2) ≤ f := by
            have : sizeJ (.arr (x :: xs2)) = 1 + sizeL (x :: xs2) := rfl
            omega
          rw [(ih f (Nat.lt_succ_self f)).2.1 (x :: xs2) rest (by simp) hsz]
          rfl
      | obj kvs =>
        cases kvs with
        | nil =>
          show parseValue (f + 1) ((braceOpen :: braceClose :: []) ++ rest) = some (.obj [], rest)
          rfl
        | cons kv kvs2 =>
          have hred : serVal [] [] (.obj (kv :: kvs2)) =
              braceOpen :: (joinSep [','] (serEntries [] [] (kv :: kvs2)) ++ [braceClose]) := rfl
          rw [hred]
          obtain ⟨r0, hj⟩ := joinSep_entries_cons [','] kv kvs2 []
          have hcs : (braceOpen :: (joinSep [','] (serEntries [] [] (kv :: kvs2)) ++
              [braceClose])) ++ rest = braceOpen :: ('"' :: (r0 ++ (braceClose :: rest))) := by
            rw [hj]
            simp
          rw [hcs]
          rw [parseValue, skipWs_cons_of_not_ws _ _ (by decide)]
          dsimp only
          rw [if_neg (by decide), if_neg (by decide), if_neg (by decide), if_neg (by decide),
            if_neg (by decide), if_pos rfl]
          rw [skipWs_cons_of_not_ws _ _ (by decide)]
          dsimp only
          rw [if_neg (by decide)]
          have hback : '"' :: (r0 ++ (braceClose :: rest)) =
              joinSep [','] (serEntries [] [] (kv :: kvs2)) ++ braceClose :: rest := by
            rw [hj]
            simp
          rw [hback]
          have hsz : sizeO (kv :: kvs2) ≤ f := by
            have : sizeJ (.obj (kv :: kvs2)) = 1 + sizeO (kv :: kvs2) := rfl
            omega
          rw [(ih f (Nat.lt_succ_self f)).2.2 (kv :: kvs2) rest (by simp) hsz]
          rfl
    · -- element lists
      intro xs rest hne hsize
      cases xs with
      | nil => exact absurd rfl hne
      | cons x xs2 =>
      have hposx := sizeJ_pos x
      cases f with
      | zero => simp only [sizeL] at hsize; omega
      | succ f =>
      have hvx := (ih f (Nat.lt_succ_self f)).1
      cases xs2 with
      | nil =>
        have hj : joinSep [','] (serItems [] [] [x]) = serVal [] [] x := rfl
        rw [hj]
        rw [parseItems]
        rw [hvx x (']' :: rest) (by simp only [sizeL] at hsize; omega)
          (headNotDigit_cons _ _ (by decide))]
        dsimp only
        rw [skipWs_cons_of_not_ws _ _ (by decide)]
        dsimp only
        rw [if_neg (by decide), if_pos rfl]
      | cons y ys =>
        have hj : joinSep [','] (serItems [] [] (x :: y :: ys)) ++ ']' :: rest =
            serVal [] [] x ++ (',' :: (joinSep [','] (serItems [] [] (y :: ys)) ++ ']' :: rest)) := by
          show (serVal [] [] x ++ [','] ++ joinSep [','] (serItems [] [] (y :: ys))) ++
            ']' :: rest = _
          simp
        rw [hj]
        rw [parseItems]
        rw [hvx x _ (by simp only [sizeL] at hsize ⊢; omega) (headNotDigit_cons _ _ (by decide))]
        dsimp only
        rw [skipWs_cons_of_not_ws _ _ (by decide)]
        dsimp only
        rw [if_pos rfl]
        rw [(ih f (Nat.lt_succ_self f)).2.1 (y :: ys) rest (by simp)
          (by simp only [sizeL] at hsize ⊢; omega)]
        rfl
    · -- entry lists
      intro kvs rest hne hsize
      cases kvs with
      | nil => exact absurd rfl hne
      | cons kv kvs2 =>
      obtain ⟨k, v⟩ := kv
      have hposv := sizeJ_pos v
      cases f with
      | zero => simp only [sizeO] at hsize; omega
      | succ f =>
      have hvv := (ih f (Nat.lt_succ_self f)).1
      cases kvs2 with
      | nil =>
        have hj : joinSep [','] (serEntries [] [] [(k, v)]) ++ braceClose :: rest =
            '"' :: (escList k.data ++ '"' :: (':' :: (serVal [] [] v ++
              braceClose :: rest))) := by
          simp [serEntries, joinSep]
        rw [hj]
        rw [parseEntries, skipWs_cons_of_not_ws _ _ (by decide)]
        dsimp only
        rw [if_pos rfl]
        rw [parseStrChars_escList k.data (':' :: (serVal [] [] v ++ braceClose :: rest))]
        dsimp only
        rw [skipWs_cons_of_not_ws _ _ (by decide)]
        dsimp only
        rw [if_pos rfl]
        rw [hvv v (braceClose :: rest) (by simp only [sizeO] at hsize; omega)
          (headNotDigit_cons _ _ (by decide))]
        dsimp only
        rw [skipWs_cons_of_not_ws _ _ (by decide)]
        dsimp only
        rw [if_neg (by decide), if_pos rfl]
      | cons kv2 kvs3 =>
        have hj : joinSep [','] (serEntries [] [] ((k, v) :: kv2 :: kvs3)) ++
            braceClose :: rest =
            '"' :: (escList k.data ++ '"' :: (':' :: (serVal [] [] v ++
              ',' :: (joinSep [','] (serEntries [] [] (kv2 :: kvs3)) ++
                braceClose :: rest)))) := by
          simp [serEntries, joinSep]
        rw [hj]
        rw [parseEntries, skipWs_cons_of_not_ws _ _ (by decide)]
        dsimp only
        rw [if_pos rfl]
        rw [parseStrChars_escList k.data (':' :: (serVal [] [] v ++
          ',' :: (joinSep [','] (serEntries [] [] (kv2 :: kvs3)) ++ braceClose :: rest)))]
        dsimp only
        rw [skipWs_cons_of_not_ws _ _ (by decide)]
        dsimp only
        rw [if_pos rfl]
        rw [hvv v _ (by simp only [sizeO] at hsize ⊢; omega)
          (headNotDigit_cons _ _ (by decide))]
        dsimp only
        rw [skipWs_cons_of_not_ws _ _ (by decide)]
        dsimp only
        rw [if_pos rfl]
        rw [(ih f (Nat.lt_succ_self f)).2.2 (kv2 :: kvs3) rest (by simp)
          (by simp only [sizeO] at hsize ⊢; omega)]
        rfl

/-! ## Claim C1: minified round trip -/

/-- The empty boundary has no digit head. -/
theorem headNotDigit_nil : headNotDigit ([] : List Char) := by
  intro c hc
  simp at hc

/-- Claim C1 amended: with token-aware mode off, the minified output of
every value re-parses to a value equal to the original. -/
theorem minified_roundtrip_tokenAware_off (v : Json) :
    jsonParse (jsonStringify false none v) = some v := by
  have hser : (jsonStringify false none v).data = serVal [] [] v := rfl
  unfold jsonParse
  rw [hser]
  have hfuel : sizeJ v ≤ (serVal [] [] v).length + 1 := by
    have := sizeJ_le_serVal v
    omega
  have hmain := (parse_render_main ((serVal [] [] v).length + 1)).1 v [] hfuel headNotDigit_nil
  rw [List.append_nil] at hmain
  rw [hmain]
  rfl

/-- Claim C1 counterexample: with token-aware mode on, a value containing
no bare-word-eligible string can still fail to round trip.  The string
value here is not eligible (it contains a space), yet the unquote
post-pass of the token-aware minified converter matches its serialized
text and strips both the quotes and the marker-shaped affixes, leaving
output that is not valid JSON at all. -/
theorem minified_roundtrip_counterexample :
    containsEligibleString (Json.str "__UNQUOTED__a b__") = false ∧
    jsonStringify true none (Json.str "__UNQUOTED__a b__") = "a b" ∧
    jsonParse (jsonStringify true none (Json.str "__UNQUOTED__a b__")) = none := by
  refine ⟨by decide, by decide, ?_⟩
  rfl

/-! ## Marker post-pass lemmas (claim C3) -/

/-- Characters differ when their code points do. -/
theorem char_ne_of_toNat_ne {c d : Char} (h : c.toNat ≠ d.toNat) : c ≠ d :=
  fun hc => h (congrArg Char.toNat hc)

/-- Marker-freedom of the Bool scan coincides with the proposition. -/
theorem markerFreeL_iff : ∀ l : List Char, markerFreeL l = true ↔ MF l := by
  intro l
  induction l with
  | nil =>
    constructor
    · intro _ j h
      have := h.length_le
      simp [markerChars] at this
    · intro _; rfl
  | cons c cs ih =>
    rw [markerFreeL, Bool.and_eq_true, ih]
    constructor
    · rintro ⟨h1, h2⟩ j
      cases j with
      | zero =>
        intro hpre
        rw [List.drop_zero] at hpre
        have : (c :: cs).take 12 = markerChars := by
          have := List.prefix_iff_eq_take.mp hpre
          rw [show markerChars.length = 12 from rfl] at this
          exact this.symm
        simp [this] at h1
      | succ j =>
        intro hpre
        exact h2 j (by simpa using hpre)
    · intro h
      refine ⟨?_, fun j => by simpa using h (j + 1)⟩
      have h0 := h 0
      rw [List.drop_zero] at h0
      rw [Bool.not_eq_true', beq_eq_false_iff_ne]
      intro heq
      exact h0 (List.prefix_iff_eq_take.mpr (by rw [show markerChars.length = 12 from rfl, heq]))

/-- Marker-freedom descends to the tail. -/
theorem MF_tail {c : Char} {cs : List Char} (h : MF (c :: cs)) : MF cs :=
  fun j => by simpa using h (j + 1)

/-- A list not starting with an underscore is not marker-prefixed. -/
theorem notMarkerPrefix_head {c : Char} (l : List Char) (h : c ≠ '_') :
    ¬ (markerChars <+: c :: l) := by
  intro hpre
  rw [show markerChars = '_' :: ('_' :: 'U' :: 'N' :: 'Q' :: 'U' :: 'O' :: 'T' :: 'E' :: 'D' :: '_' :: '_' :: []) from rfl, List.cons_prefix_cons] at hpre
  exact h hpre.1.symm

/-- The empty list is not marker-prefixed. -/
theorem notMarkerPrefix_nil : ¬ (markerChars <+: ([] : List Char)) := by
  intro h
  have := h.length_le
  simp [markerChars] at this

/-- Shape of a successful lazy capture. -/
theorem lazyCap_shape :
    ∀ l p r, lazyCap l = some (p, r) → l = p ++ '_' :: '_' :: '"' :: r := by
  intro l
  induction l with
  | nil => intro p r h; simp [lazyCap] at h
  | cons c cs ih =>
    intro p r h
    rw [lazyCap] at h
    by_cases hnl : c = '\n'
    · rw [if_pos hnl] at h; cases h
    · rw [if_neg hnl] at h
      by_cases h3 : cs.take 3 = ['_', '_', '"']
      · rw [if_pos h3] at h
        cases h
        have := (List.take_append_drop 3 cs).symm
        rw [h3] at this
        simpa using this
      · rw [if_neg h3] at h
        cases hrec : lazyCap cs with
        | none => rw [hrec] at h; cases h
        | some pr =>
          obtain ⟨p2, r2⟩ := pr
          rw [hrec] at h
          simp only [Option.some.injEq, Prod.mk.injEq] at h
          obtain ⟨hp, hr⟩ := h
          subst hp
          subst hr
          have := ih p2 r2 hrec
          simp [this]

/-- The lazy capture of a word run before the closing marker takes
exactly the run, independently of the continuation. -/
theorem lazyCap_marker :
    ∀ (s t : List Char), s ≠ [] → (∀ c ∈ s, isYamlWordChar c = true) →
      lazyCap (s ++ '_' :: '_' :: '"' :: t) = some (s, t) := by
  intro s
  induction s with
  | nil => intro t h; exact absurd rfl h
  | cons c s ih =>
    intro t _ hword
    have hc := hword c (List.mem_cons_self _ _)
    have hcnl : c ≠ '\n' := by
      intro hcc
      rw [hcc] at hc
      exact absurd hc (by decide)
    rw [List.cons_append, lazyCap, if_neg hcnl]
    cases s with
    | nil =>
      rw [if_pos (by simp)]
      simp
    | cons d s2 =>
      have hd := hword d (List.mem_cons_of_mem _ (List.mem_cons_self _ _))
      have h3 : ((d :: s2) ++ '_' :: '_' :: '"' :: t).take 3 ≠ ['_', '_', '"'] := by
        cases s2 with
        | nil =>
          simp
        | cons e s3 =>
          have he := hword e (by simp)
          intro hcontra
          simp only [List.cons_append, List.take_succ_cons, List.take] at hcontra
          cases s3 with
          | nil =>
            simp at hcontra
          | cons g s4 =>
            have hg := hword g (by simp)
            simp only [List.cons_append, List.take, List.cons.injEq, and_true] at hcontra
            obtain ⟨h1c, h2c, hgq⟩ := hcontra
            rw [hgq] at hg
            exact absurd hg (by decide)
      rw [if_neg h3]
      rw [ih t (by simp) (fun z hz => hword z (List.mem_cons_of_mem _ hz))]

/-- The replace scan is fuel-insensitive once the fuel covers the input
length. -/
theorem rmAux_fuel :
    ∀ (f1 : Nat) (cs : List Char) (f2 : Nat), cs.length ≤ f1 → cs.length ≤ f2 →
      rmAux f1 cs = rmAux f2 cs := by
  intro f1
  induction f1 using Nat.strong_induction_on with
  | _ f1 ih =>
    intro cs f2 h1 h2
    cases cs with
    | nil => cases f1 <;> cases f2 <;> rfl
    | cons c cs =>
      simp only [List.length_cons] at h1 h2
      cases f1 with
      | zero => omega
      | succ f1 =>
        cases f2 with
        | zero => omega
        | succ f2 =>
          rw [rmAux, rmAux]
          by_cases hcond : c = '"' ∧ cs.take 12 = markerChars
          · rw [if_pos hcond, if_pos hcond]
            cases hlc : lazyCap (cs.drop 12) with
            | none =>
              dsimp only
              rw [ih f1 (Nat.lt_succ_self f1) cs f2 (by omega) (by omega)]
            | some pr =>
              obtain ⟨cap, rest⟩ := pr
              have hshape := lazyCap_shape _ _ _ hlc
              have hlen : rest.length ≤ cs.length := by
                have h12 : (cs.drop 12).length = cs.length - 12 := by simp
                have := congrArg List.length hshape
                simp only [List.length_append, List.length_cons] at this
                omega
              dsimp only
              rw [ih f1 (Nat.lt_succ_self f1) rest f2 (by omega) (by omega)]
          · rw [if_neg hcond, if_neg hcond]
            rw [ih f1 (Nat.lt_succ_self f1) cs f2 (by omega) (by omega)]

/-- Scan step at a position with no match. -/
theorem rmF_cons_nomatch (c : Char) (cs : List Char)
    (h : ¬ (c = '"' ∧ cs.take 12 = markerChars)) : rmF (c :: cs) = c :: rmF cs := by
  unfold rmF
  simp only [List.length_cons]
  rw [rmAux, if_neg h]

/-- Scan step at a marker occurrence: the capture is emitted, the match
consumed. -/
theorem rmF_marker (s t : List Char) (hne : s ≠ [])
    (hword : ∀ c ∈ s, isYamlWordChar c = true) :
    rmF ('"' :: (markerChars ++ (s ++ ('_' :: '_' :: '"' :: t)))) = s ++ rmF t := by
  unfold rmF
  simp only [List.length_cons]
  rw [rmAux]
  rw [if_pos ⟨rfl, by rw [List.take_left' (by rfl)]⟩]
  rw [List.drop_left' (by rfl)]
  rw [lazyCap_marker s t hne hword]
  show s ++ _ = s ++ rmF t
  congr 1
  unfold rmF
  apply rmAux_fuel
  · simp only [markerChars, List.length_append, List.length_cons]
    omega
  · exact Nat.le_refl _

/-- The scan copies a quote-free segment unchanged. -/
theorem rmF_append_noquote :
    ∀ (a t : List Char), (∀ c ∈ a, c ≠ '"') → rmF (a ++ t) = a ++ rmF t := by
  intro a
  induction a with
  | nil => intro t _; rfl
  | cons c a ih =>
    intro t hall
    rw [List.cons_append, rmF_cons_nomatch c (a ++ t)
      (fun hc => hall c (List.mem_cons_self _ _) hc.1)]
    rw [ih t (fun z hz => hall z (List.mem_cons_of_mem _ hz))]
    rfl

/-- Escape pieces are a plain character or start with a backslash. -/
theorem escChar_cases (c : Char) : escChar c = [c] ∨ ∃ l, escChar c = '\\' :: l := by
  unfold escChar
  repeat' first
    | exact Or.inr ⟨_, rfl⟩
    | exact Or.inl rfl
    | split

/-- A backslash-free word that prefixes an escaped body prefixes the
body. -/
theorem escList_P :
    ∀ (s w : List Char), (∀ ch ∈ w, ch ≠ '\\') → w <+: escList s → w <+: s := by
  intro s
  induction s with
  | nil =>
    intro w _ h
    rw [show escList ([] : List Char) = [] from rfl] at h
    exact h
  | cons c s ih =>
    intro w hw h
    cases w with
    | nil => exact List.nil_prefix
    | cons x w2 =>
      rcases escChar_cases c with hc | ⟨l, hc⟩
      · rw [show escList (c :: s) = escChar c ++ escList s from rfl, hc,
          List.singleton_append, List.cons_prefix_cons] at h
        rw [List.cons_prefix_cons]
        exact ⟨h.1, ih w2 (fun z hz => hw z (List.mem_cons_of_mem _ hz)) h.2⟩
      · rw [show escList (c :: s) = escChar c ++ escList s from rfl, hc,
          List.cons_append, List.cons_prefix_cons] at h
        exact absurd h.1 (hw x (List.mem_cons_self _ _))

/-- A marker prefix cannot straddle into a quote-headed continuation. -/
theorem noMarker_cross (a b : List Char) (ha : ¬ markerChars <+: a)
    (hb : b = [] ∨ ∃ t, b = '"' :: t) : ¬ markerChars <+: (a ++ b) := by
  intro h
  rcases List.prefix_or_prefix_of_prefix h (List.prefix_append a b) with h1 | h1
  · exact ha h1
  · obtain ⟨m2, hm⟩ := h1
    rw [← hm, List.prefix_append_right_inj] at h
    cases m2 with
    | nil =>
      rw [List.append_nil] at hm
      exact ha (hm ▸ List.prefix_refl a)
    | cons x m3 =>
      have hxmem : x ∈ markerChars := by
        rw [← hm]
        exact List.mem_append_right _ (List.mem_cons_self _ _)
      rcases hb with hb | ⟨t, hb⟩
      · subst hb
        simp at h
      · subst hb
        rw [List.cons_prefix_cons] at h
        have hnq : ∀ y ∈ markerChars, y ≠ '"' := by decide
        exact hnq x hxmem h.1

/-- Escaped marker-free text followed by nothing or a quote carries no
marker prefix. -/
theorem noMarker_quoted (s r : List Char) (hs : MF s)
    (hr : r = [] ∨ ∃ t, r = '"' :: t) : ¬ markerChars <+: (escList s ++ r) := by
  apply noMarker_cross _ _ _ hr
  intro h
  have hbs : ∀ ch ∈ markerChars, ch ≠ '\\' := by decide
  have := escList_P s markerChars hbs h
  have h0 := hs 0
  rw [List.drop_zero] at h0
  exact h0 this

/-- Produced hexadecimal digits are not quotes. -/
theorem hexDigitChar_ne_quote (m : Nat) (h : m < 16) : hexDigitChar m ≠ '"' := by
  interval_cases m <;> decide

/-- The escape piece of a non-quote character contains no quote. -/
theorem escChar_no_quote (c : Char) (hq : c ≠ '"') : ∀ ch ∈ escChar c, ch ≠ '"' := by
  intro ch hch
  unfold escChar at hch
  rw [if_neg hq] at hch
  split at hch
  · simp only [List.mem_cons, List.not_mem_nil, or_false] at hch
    rcases hch with h | h <;> (subst h; decide)
  · split at hch
    · simp only [List.mem_cons, List.not_mem_nil, or_false] at hch
      rcases hch with h | h <;> (subst h; decide)
    · split at hch
      · simp only [List.mem_cons, List.not_mem_nil, or_false] at hch
        rcases hch with h | h <;> (subst h; decide)
      · split at hch
        · simp only [List.mem_cons, List.not_mem_nil, or_false] at hch
          rcases hch with h | h <;> (subst h; decide)
        · split at hch
          · simp only [List.mem_cons, List.not_mem_nil, or_false] at hch
            rcases hch with h | h <;> (subst h; decide)
          · split at hch
            · simp only [List.mem_cons, List.not_mem_nil, or_false] at hch
              rcases hch with h | h <;> (subst h; decide)
            · rename_i hc1 hc2 hc3 hc4 hc5 hc6
              split at hch
              · rename_i hlt
                simp only [List.mem_cons, List.not_mem_nil, or_false] at hch
                rcases hch with h | h | h | h | h | h
                · subst h; decide
                · subst h; decide
                · subst h; decide
                · subst h; decide
                · subst h; exact hexDigitChar_ne_quote _ (by omega)
                · subst h; exact hexDigitChar_ne_quote _ (by omega)
              · simp only [List.mem_cons, List.not_mem_nil, or_false] at hch
                subst hch
                exact hq

/-- The scan copies an escaped marker-free string body unchanged when the
continuation starts with a quote. -/
theorem rmF_escList :
    ∀ (s r : List Char), MF s → (∃ t, r = '"' :: t) →
      rmF (escList s ++ r) = escList s ++ rmF r := by
  intro s
  induction s with
  | nil => intro r _ _; rfl
  | cons c s ih =>
    intro r hs hr
    by_cases hq : c = '"'
    · subst hq
      rw [show escList ('"' :: s) = '\\' :: '"' :: escList s from rfl]
      simp only [List.cons_append]
      rw [rmF_cons_nomatch '\\' _ (fun hc => absurd hc.1 (by decide))]
      rw [rmF_cons_nomatch '"' _ ?hc]
      case hc =>
        rintro ⟨-, htake⟩
        have hpre : markerChars <+: (escList s ++ r) :=
          List.prefix_iff_eq_take.mpr (by rw [show markerChars.length = 12 from rfl, htake])
        exact noMarker_quoted s r (MF_tail hs) (Or.inr hr) hpre
      rw [ih r (MF_tail hs) hr]
    · have hnoq := escChar_no_quote c hq
      rw [show escList (c :: s) = escChar c ++ escList s from rfl]
      rw [List.append_assoc]
      rw [rmF_append_noquote (escChar c) _ hnoq]
      rw [ih r (MF_tail hs) hr]
      simp

/-- The scan copies a whole quoted marker-free string literal unchanged
when the continuation is not marker-prefixed. -/
theorem rmF_quoted (s t : List Char) (hs : MF s) (ht : ¬ markerChars <+: t) :
    rmF (('"' :: escList s ++ ['"']) ++ t) = ('"' :: escList s ++ ['"']) ++ rmF t := by
  have hshape : ('"' :: escList s ++ ['"']) ++ t = '"' :: (escList s ++ ('"' :: t)) := by
    simp
  rw [hshape]
  rw [rmF_cons_nomatch '"' _ ?hc1]
  case hc1 =>
    rintro ⟨-, htake⟩
    have hpre : markerChars <+: (escList s ++ '"' :: t) :=
      List.prefix_iff_eq_take.mpr (by rw [show markerChars.length = 12 from rfl, htake])
    exact noMarker_quoted s ('"' :: t) hs (Or.inr ⟨t, rfl⟩) hpre
  rw [rmF_escList s ('"' :: t) hs ⟨t, rfl⟩]
  rw [rmF_cons_nomatch '"' t ?hc2]
  case hc2 =>
    rintro ⟨-, htake⟩
    exact ht (List.prefix_iff_eq_take.mpr
      (by rw [show markerChars.length = 12 from rfl, htake]))
  simp

/-- Escaping is the identity on lists of unescaped characters. -/
theorem escList_safe : ∀ l : List Char, (∀ c ∈ l, escChar c = [c]) → escList l = l := by
  intro l
  induction l with
  | nil => intro _; rfl
  | cons c l ih =>
    intro hall
    rw [show escList (c :: l) = escChar c ++ escList l from rfl,
      hall c (List.mem_cons_self _ _), ih (fun z hz => hall z (List.mem_cons_of_mem _ hz))]
    rfl

/-- Word characters need no escaping. -/
theorem wordChar_escChar (c : Char) (hw : isYamlWordChar c = true) : escChar c = [c] := by
  have h := (isYamlWordChar_iff c).mp hw
  have hq : ('"' : Char).toNat = 34 := by decide
  have hbs : ('\\' : Char).toNat = 92 := by decide
  have hu : ('_' : Char).toNat = 95 := by decide
  have hh : ('-' : Char).toNat = 45 := by decide
  have hfacts : 45 ≤ c.toNat ∧ c.toNat ≠ 34 ∧ c.toNat ≠ 92 := by
    rcases h with h | h | h | h | h
    · omega
    · omega
    · omega
    · have := congrArg Char.toNat h
      rw [hu] at this
      omega
    · have := congrArg Char.toNat h
      rw [hh] at this
      omega
  obtain ⟨hge, h34, h92⟩ := hfacts
  unfold escChar
  rw [if_neg (char_ne_of_toNat_ne (by rw [hq]; omega)),
    if_neg (char_ne_of_toNat_ne (by rw [hbs]; omega)),
    if_neg (char_ne_of_toNat_ne (by show c.toNat ≠ (8 : Nat); omega)),
    if_neg (char_ne_of_toNat_ne (by show c.toNat ≠ (9 : Nat); omega)),
    if_neg (char_ne_of_toNat_ne (by show c.toNat ≠ (10 : Nat); omega)),
    if_neg (char_ne_of_toNat_ne (by show c.toNat ≠ (12 : Nat); omega)),
    if_neg (char_ne_of_toNat_ne (by show c.toNat ≠ (13 : Nat); omega)),
    if_neg (by omega)]

/-- The safe bare-word condition gives a non-empty all-word-character
body. -/
theorem bareWordOk_facts (s : String) (hb : bareWordOk s = true) :
    s.data ≠ [] ∧ ∀ c ∈ s.data, isYamlWordChar c = true := by
  unfold bareWordOk matchesSafePattern at hb
  simp only [Bool.and_eq_true, decide_eq_true_eq, List.all_eq_true] at hb
  exact ⟨hb.1.1, hb.1.2⟩

/-- The scan turns the serialized marker wrapper of a safe string into
the bare string. -/
theorem rmF_markerized (s : String) (hb : bareWordOk s = true) (t : List Char) :
    rmF (('"' :: escList (markerize s).data ++ ['"']) ++ t) = s.data ++ rmF t := by
  obtain ⟨hne, hword⟩ := bareWordOk_facts s hb
  have hmdata : (markerize s).data = markerChars ++ s.data ++ ['_', '_'] := rfl
  have hsafe : escList (markerize s).data = (markerize s).data := by
    apply escList_safe
    intro c hc
    apply wordChar_escChar
    rw [hmdata] at hc
    rcases List.mem_append.mp hc with hc2 | hc2
    · rcases List.mem_append.mp hc2 with hc3 | hc3
      · have hmk : ∀ y ∈ markerChars, isYamlWordChar y = true := by decide
        exact hmk c hc3
      · exact hword c hc3
    · simp only [List.mem_cons, List.not_mem_nil, or_false] at hc2
      rcases hc2 with h | h <;> (subst h; decide)
  rw [hsafe, hmdata]
  have hshape : ('"' :: (markerChars ++ s.data ++ ['_', '_']) ++ ['"']) ++ t =
      '"' :: (markerChars ++ (s.data ++ ('_' :: '_' :: '"' :: t))) := by
    simp
  rw [hshape]
  exact rmF_marker s.data t hne hword

/-- The scan maps the joined element renderings elementwise, given the
per-element property. -/
theorem rmF_items (gap ind1 sep : List Char)
    (hsep : ∃ sep2, sep = ',' :: sep2 ∧ ∀ c ∈ sep2, c ≠ '"') :
    ∀ xs : List Json, xs ≠ [] →
      (∀ x ∈ xs, ∀ u : List Char, jsonMarkerFree x = true → ¬ markerChars <+: u →
        rmF (serVal gap ind1 (mapEligible x) ++ u) = serValD gap ind1 x ++ rmF u) →
      jsonMarkerFreeList xs = true →
      ∀ t : List Char, ¬ markerChars <+: t →
        rmF (joinSep sep (serItems gap ind1 (mapEligibleList xs)) ++ t) =
          joinSep sep (serItemsD gap ind1 xs) ++ rmF t := by
  obtain ⟨sep2, hsepeq, hsep2⟩ := hsep
  subst hsepeq
  intro xs
  induction xs with
  | nil => intro h; exact absurd rfl h
  | cons x xs ih =>
    intro _ hall hmf t ht
    have hmfx : jsonMarkerFree x = true ∧ jsonMarkerFreeList xs = true := by
      have := hmf
      rw [jsonMarkerFreeList, Bool.and_eq_true] at this
      exact this
    cases xs with
    | nil =>
      have hjoin : joinSep (',' :: sep2) (serItems gap ind1 (mapEligibleList [x])) =
          serVal gap ind1 (mapEligible x) := rfl
      have hjoinD : joinSep (',' :: sep2) (serItemsD gap ind1 [x]) = serValD gap ind1 x := rfl
      rw [hjoin, hjoinD]
      exact hall x (List.mem_cons_self _ _) t hmfx.1 ht
    | cons y ys =>
      have hjoin : joinSep (',' :: sep2) (serItems gap ind1 (mapEligibleList (x :: y :: ys))) ++ t =
          serVal gap ind1 (mapEligible x) ++
            ((',' :: sep2) ++ (joinSep (',' :: sep2) (serItems gap ind1 (mapEligibleList (y :: ys))) ++ t)) := by
        show (serVal gap ind1 (mapEligible x) ++ (',' :: sep2) ++
          joinSep (',' :: sep2) (serItems gap ind1 (mapEligibleList (y :: ys)))) ++ t = _
        simp
      have hjoinD : joinSep (',' :: sep2) (serItemsD gap ind1 (x :: y :: ys)) =
          serValD gap ind1 x ++ (',' :: sep2) ++ joinSep (',' :: sep2) (serItemsD gap ind1 (y :: ys)) := rfl
      rw [hjoin, hjoinD]
      have hu : ¬ markerChars <+:
          ((',' :: sep2) ++
            (joinSep (',' :: sep2) (serItems gap ind1 (mapEligibleList (y :: ys))) ++ t)) := by
        exact notMarkerPrefix_head _ (by decide)
      rw [hall x (List.mem_cons_self _ _) _ hmfx.1 hu]
      rw [rmF_append_noquote (',' :: sep2) _ (by
        intro z hz
        simp only [List.mem_cons] at hz
        rcases hz with h | h
        · subst h; decide
        · exact hsep2 z h)]
      rw [ih (by simp) (fun z hz => hall z (List.mem_cons_of_mem _ hz)) hmfx.2 t ht]
      simp

/-- Integer renderings contain no quote character. -/
theorem intChars_no_quote (n : Int) : ∀ c ∈ intChars n, c ≠ '"' := by
  intro c hc
  have hdig : c.isDigit = true → c ≠ '"' := by
    intro hd he
    rw [isDigit_iff] at hd
    rw [he] at hd
    exact absurd hd (by decide)
  rw [intChars] at hc
  by_cases hneg : n < 0
  · rw [if_pos hneg] at hc
    rcases List.mem_cons.mp hc with h | h
    · subst h; decide
    · exact hdig (natChars_all_digits _ c h)
  · rw [if_neg hneg] at hc
    exact hdig (natChars_all_digits _ c hc)

/-- The scan maps the joined object-entry renderings elementwise, given the
per-value property. -/
theorem rmF_entries (gap ind1 sep2 : List Char)
    (hsep2 : ∀ c ∈ sep2, c ≠ '"') :
    ∀ kvs : List (String × Json),
      (∀ kv ∈ kvs, ∀ u : List Char, jsonMarkerFree kv.2 = true → ¬ markerChars <+: u →
        rmF (serVal gap ind1 (mapEligible kv.2) ++ u) = serValD gap ind1 kv.2 ++ rmF u) →
      jsonMarkerFreeObj kvs = true →
      ∀ t : List Char, ¬ markerChars <+: t →
        rmF (joinSep (',' :: sep2) (serEntries gap ind1 (mapEligibleObj kvs)) ++ t) =
          joinSep (',' :: sep2) (serEntriesD gap ind1 kvs) ++ rmF t := by
  have hentry : ∀ (k : String) (v : Json), ∀ u : List Char,
      (∀ w : List Char, jsonMarkerFree v = true → ¬ markerChars <+: w →
        rmF (serVal gap ind1 (mapEligible v) ++ w) = serValD gap ind1 v ++ rmF w) →
      markerFreeL k.data = true → jsonMarkerFree v = true → ¬ markerChars <+: u →
      rmF (('"' :: escList k.data ++ '"' :: ':' ::
          (if gap = [] then [] else [' ']) ++ serVal gap ind1 (mapEligible v)) ++ u) =
        ('"' :: escList k.data ++ '"' :: ':' ::
          (if gap = [] then [] else [' ']) ++ serValD gap ind1 v) ++ rmF u := by
    intro k v u hv hk hmv hu
    have hmid : ∀ c ∈ (':' :: (if gap = [] then [] else [' '])), c ≠ '"' := by
      intro c hc
      rcases List.mem_cons.mp hc with h | h
      · subst h; decide
      · by_cases hg : gap = []
        · rw [if_pos hg] at h; exact absurd h (by simp)
        · rw [if_neg hg] at h
          simp only [List.mem_singleton] at h
          subst h; decide
    have hshape : ('"' :: escList k.data ++ '"' :: ':' ::
        (if gap = [] then [] else [' ']) ++ serVal gap ind1 (mapEligible v)) ++ u =
        ('"' :: escList k.data ++ ['"']) ++ ((':' :: (if gap = [] then [] else [' '])) ++
          (serVal gap ind1 (mapEligible v) ++ u)) := by
      simp
    rw [hshape]
    have hu2 : ¬ markerChars <+: ((':' :: (if gap = [] then [] else [' '])) ++
        (serVal gap ind1 (mapEligible v) ++ u)) := by
      rw [List.cons_append]
      exact notMarkerPrefix_head _ (by decide)
    rw [rmF_quoted k.data _ ((markerFreeL_iff k.data).mp hk) hu2]
    rw [rmF_append_noquote (':' :: (if gap = [] then [] else [' '])) _ hmid]
    rw [hv _ hmv hu]
    simp
  intro kvs
  induction kvs with
  | nil =>
    intro _ _ t ht
    show rmF ([] ++ t) = [] ++ rmF t
    simp
  | cons kv kvs ih =>
    obtain ⟨k, v⟩ := kv
    intro hall hmf t ht
    have hmfx : markerFreeL k.data = true ∧ jsonMarkerFree v = true ∧
        jsonMarkerFreeObj kvs = true := by
      have := hmf
      rw [jsonMarkerFreeObj, Bool.and_eq_true, Bool.and_eq_true] at this
      exact ⟨this.1.1, this.1.2, this.2⟩
    have hvx := hall (k, v) (List.mem_cons_self _ _)
    cases kvs with
    | nil =>
      have hjoin : joinSep (',' :: sep2) (serEntries gap ind1 (mapEligibleObj [(k, v)])) =
          '"' :: escList k.data ++ '"' :: ':' ::
            (if gap = [] then [] else [' ']) ++ serVal gap ind1 (mapEligible v) := rfl
      have hjoinD : joinSep (',' :: sep2) (serEntriesD gap ind1 [(k, v)]) =
          '"' :: escList k.data ++ '"' :: ':' ::
            (if gap = [] then [] else [' ']) ++ serValD gap ind1 v := rfl
      rw [hjoin, hjoinD]
      exact hentry k v t (fun w => hvx w) hmfx.1 hmfx.2.1 ht
    | cons kv2 kvs2 =>
      have hjoin : joinSep (',' :: sep2)
            (serEntries gap ind1 (mapEligibleObj ((k, v) :: kv2 :: kvs2))) ++ t =
          ('"' :: escList k.data ++ '"' :: ':' ::
            (if gap = [] then [] else [' ']) ++ serVal gap ind1 (mapEligible v)) ++
            ((',' :: sep2) ++
              (joinSep (',' :: sep2) (serEntries gap ind1 (mapEligibleObj (kv2 :: kvs2))) ++ t)) := by
        obtain ⟨k2, v2⟩ := kv2
        show (('"' :: escList k.data ++ '"' :: ':' ::
          (if gap = [] then [] else [' ']) ++ serVal gap ind1 (mapEligible v)) ++ (',' :: sep2) ++
          joinSep (',' :: sep2) (serEntries gap ind1 (mapEligibleObj ((k2, v2) :: kvs2)))) ++ t = _
        simp
      have hjoinD : joinSep (',' :: sep2) (serEntriesD gap ind1 ((k, v) :: kv2 :: kvs2)) =
          ('"' :: escList k.data ++ '"' :: ':' ::
            (if gap = [] then [] else [' ']) ++ serValD gap ind1 v) ++ (',' :: sep2) ++
            joinSep (',' :: sep2) (serEntriesD gap ind1 (kv2 :: kvs2)) := by
        obtain ⟨k2, v2⟩ := kv2
        rfl
      rw [hjoin, hjoinD]
      have hu : ¬ markerChars <+:
          ((',' :: sep2) ++
            (joinSep (',' :: sep2) (serEntries gap ind1 (mapEligibleObj (kv2 :: kvs2))) ++ t)) :=
        notMarkerPrefix_head _ (by decide)
      rw [hentry k v _ (fun w => hvx w) hmfx.1 hmfx.2.1 hu]
      rw [rmF_append_noquote (',' :: sep2) _ (by
        intro z hz
        rcases List.mem_cons.mp hz with h | h
        · subst h; decide
        · exact hsep2 z h)]
      rw [ih (fun z hz => hall z (List.mem_cons_of_mem _ hz)) hmfx.2.2 t ht]
      simp

/-- Unfolding equation for serVal on a non-empty array. -/
theorem serVal_arr_eq (gap ind : List Char) (x : Json) (xs : List Json) :
    serVal gap ind (.arr (x :: xs)) =
      if gap = [] then '[' :: joinSep [','] (serItems gap (ind ++ gap) (x :: xs)) ++ [']']
      else '[' :: '\n' :: (ind ++ gap) ++
        joinSep (',' :: '\n' :: (ind ++ gap)) (serItems gap (ind ++ gap) (x :: xs)) ++
        '\n' :: ind ++ [']'] := rfl

/-- Unfolding equation for serVal on a non-empty object. -/
theorem serVal_obj_eq (gap ind : List Char) (kv : String × Json)
    (kvs : List (String × Json)) :
    serVal gap ind (.obj (kv :: kvs)) =
      if gap = [] then
        braceOpen :: joinSep [','] (serEntries gap (ind ++ gap) (kv :: kvs)) ++ [braceClose]
      else braceOpen :: '\n' :: (ind ++ gap) ++
        joinSep (',' :: '\n' :: (ind ++ gap)) (serEntries gap (ind ++ gap) (kv :: kvs)) ++
        '\n' :: ind ++ [braceClose] := rfl

/-- Unfolding equation for serValD on a non-empty array. -/
theorem serValD_arr_eq (gap ind : List Char) (x : Json) (xs : List Json) :
    serValD gap ind (.arr (x :: xs)) =
      if gap = [] then '[' :: joinSep [','] (serItemsD gap (ind ++ gap) (x :: xs)) ++ [']']
      else '[' :: '\n' :: (ind ++ gap) ++
        joinSep (',' :: '\n' :: (ind ++ gap)) (serItemsD gap (ind ++ gap) (x :: xs)) ++
        '\n' :: ind ++ [']'] := rfl

/-- Unfolding equation for serValD on a non-empty object. -/
theorem serValD_obj_eq (gap ind : List Char) (kv : String × Json)
    (kvs : List (String × Json)) :
    serValD gap ind (.obj (kv :: kvs)) =
      if gap = [] then
        braceOpen :: joinSep [','] (serEntriesD gap (ind ++ gap) (kv :: kvs)) ++ [braceClose]
      else braceOpen :: '\n' :: (ind ++ gap) ++
        joinSep (',' :: '\n' :: (ind ++ gap)) (serEntriesD gap (ind ++ gap) (kv :: kvs)) ++
        '\n' :: ind ++ [braceClose] := rfl

/-- Unfolding equation for mapEligible on a string. -/
theorem mapEligible_str (s : String) :
    mapEligible (.str s) = if bareWordOk s then .str (markerize s) else .str s := rfl

/-- Unfolding equation for serValD on a string. -/
theorem serValD_str (gap ind : List Char) (s : String) :
    serValD gap ind (.str s) =
      if bareWordOk s then s.data else '"' :: escList s.data ++ ['"'] := rfl

/-- Main equivalence of the token-aware pipeline with the direct bare-word
serializer: the unquote scan applied to the marker serialization of a
marker-free value, followed by any non-marker-prefixed tail, yields the
direct rendering followed by the scanned tail. -/
theorem rmF_serM (gap : List Char) (hgap : ∀ c ∈ gap, c = ' ') :
    ∀ v : Json, ∀ ind t : List Char, (∀ c ∈ ind, c = ' ') →
      jsonMarkerFree v = true → ¬ markerChars <+: t →
      rmF (serVal gap ind (mapEligible v) ++ t) = serValD gap ind v ++ rmF t := by
  apply jsonInd
  · intro ind t _ _ _
    show rmF (('n' :: 'u' :: 'l' :: 'l' :: []) ++ t) =
      ('n' :: 'u' :: 'l' :: 'l' :: []) ++ rmF t
    exact rmF_append_noquote _ t (by decide)
  · intro b ind t _ _ _
    cases b with
    | true =>
      show rmF (('t' :: 'r' :: 'u' :: 'e' :: []) ++ t) =
        ('t' :: 'r' :: 'u' :: 'e' :: []) ++ rmF t
      exact rmF_append_noquote _ t (by decide)
    | false =>
      show rmF (('f' :: 'a' :: 'l' :: 's' :: 'e' :: []) ++ t) =
        ('f' :: 'a' :: 'l' :: 's' :: 'e' :: []) ++ rmF t
      exact rmF_append_noquote _ t (by decide)
  · intro n ind t _ _ _
    show rmF (intChars n ++ t) = intChars n ++ rmF t
    exact rmF_append_noquote _ t (intChars_no_quote n)
  · intro s ind t _ hmf ht
    rw [mapEligible_str, serValD_str]
    by_cases hb : bareWordOk s = true
    · rw [if_pos hb, if_pos hb]
      show rmF (('"' :: escList (markerize s).data ++ ['"']) ++ t) = s.data ++ rmF t
      exact rmF_markerized s hb t
    · rw [if_neg hb, if_neg hb]
      show rmF (('"' :: escList s.data ++ ['"']) ++ t) =
        ('"' :: escList s.data ++ ['"']) ++ rmF t
      exact rmF_quoted s.data t ((markerFreeL_iff s.data).mp hmf) ht
  · intro xs hmem ind t hind hmf ht
    have hind1 : ∀ c ∈ ind ++ gap, c = ' ' := by
      intro c hc
      rcases List.mem_append.mp hc with h | h
      · exact hind c h
      · exact hgap c h
    cases xs with
    | nil =>
      show rmF (('[' :: ']' :: []) ++ t) = ('[' :: ']' :: []) ++ rmF t
      exact rmF_append_noquote _ t (by decide)
    | cons x xs2 =>
      have hmfL : jsonMarkerFreeList (x :: xs2) = true := hmf
      have hall : ∀ z ∈ x :: xs2, ∀ u : List Char, jsonMarkerFree z = true →
          ¬ markerChars <+: u →
          rmF (serVal gap (ind ++ gap) (mapEligible z) ++ u) =
            serValD gap (ind ++ gap) z ++ rmF u :=
        fun z hz u hm hu => hmem z hz (ind ++ gap) u hind1 hm hu
      have h1 : serVal gap ind (mapEligible (.arr (x :: xs2))) =
          if gap = [] then
            '[' :: joinSep [','] (serItems gap (ind ++ gap) (mapEligibleList (x :: xs2))) ++ [']']
          else '[' :: '\n' :: (ind ++ gap) ++
            joinSep (',' :: '\n' :: (ind ++ gap))
              (serItems gap (ind ++ gap) (mapEligibleList (x :: xs2))) ++
            '\n' :: ind ++ [']'] := by
        rw [show mapEligible (.arr (x :: xs2)) =
          .arr (mapEligible x :: mapEligibleList xs2) from rfl, serVal_arr_eq]
        rfl
      rw [h1, serValD_arr_eq]
      by_cases hg : gap = []
      · rw [if_pos hg, if_pos hg]
        have hE : ('[' ::
            joinSep [','] (serItems gap (ind ++ gap) (mapEligibleList (x :: xs2))) ++ [']']) ++ t =
            '[' :: (joinSep [','] (serItems gap (ind ++ gap) (mapEligibleList (x :: xs2))) ++
              (']' :: t)) := by
          simp
        rw [hE, rmF_cons_nomatch '[' _ (fun hc => absurd hc.1 (by decide))]
        rw [rmF_items gap (ind ++ gap) [','] ⟨[], rfl, by simp⟩ (x :: xs2) (by simp)
          hall hmfL (']' :: t) (notMarkerPrefix_head _ (by decide))]
        rw [rmF_cons_nomatch ']' t (fun hc => absurd hc.1 (by decide))]
        simp
      · rw [if_neg hg, if_neg hg]
        have hE : ('[' :: '\n' :: (ind ++ gap) ++
            joinSep (',' :: '\n' :: (ind ++ gap))
              (serItems gap (ind ++ gap) (mapEligibleList (x :: xs2))) ++
            '\n' :: ind ++ [']']) ++ t =
            ('[' :: '\n' :: (ind ++ gap)) ++
              (joinSep (',' :: '\n' :: (ind ++ gap))
                (serItems gap (ind ++ gap) (mapEligibleList (x :: xs2))) ++
                (('\n' :: ind ++ [']']) ++ t)) := by
          simp
        rw [hE]
        rw [rmF_append_noquote ('[' :: '\n' :: (ind ++ gap)) _ (by
          intro c hc
          rcases List.mem_cons.mp hc with h | h
          · subst h; decide
          rcases List.mem_cons.mp h with h2 | h2
          · subst h2; decide
          · rw [hind1 c h2]; decide)]
        have hT : ¬ markerChars <+: (('\n' :: ind ++ [']']) ++ t) := by
          simp only [List.cons_append]
          exact notMarkerPrefix_head _ (by decide)
        rw [rmF_items gap (ind ++ gap) (',' :: '\n' :: (ind ++ gap))
          ⟨'\n' :: (ind ++ gap), rfl, by
            intro c hc
            rcases List.mem_cons.mp hc with h | h
            · subst h; decide
            · rw [hind1 c h]; decide⟩
          (x :: xs2) (by simp) hall hmfL (('\n' :: ind ++ [']']) ++ t) hT]
        rw [rmF_append_noquote ('\n' :: ind ++ [']']) t (by
          intro c hc
          rcases List.mem_cons.mp hc with h | h
          · subst h; decide
          rcases List.mem_append.mp h with h2 | h2
          · rw [hind c h2]; decide
          · simp only [List.mem_singleton] at h2
            subst h2; decide)]
        simp
  · intro kvs hmem ind t hind hmf ht
    have hind1 : ∀ c ∈ ind ++ gap, c = ' ' := by
      intro c hc
      rcases List.mem_append.mp hc with h | h
      · exact hind c h
      · exact hgap c h
    cases kvs with
    | nil =>
      show rmF ((braceOpen :: braceClose :: []) ++ t) =
        (braceOpen :: braceClose :: []) ++ rmF t
      exact rmF_append_noquote _ t (by decide)
    | cons kv kvs2 =>
      have hmfO : jsonMarkerFreeObj (kv :: kvs2) = true := hmf
      have hall : ∀ z ∈ kv :: kvs2, ∀ u : List Char, jsonMarkerFree z.2 = true →
          ¬ markerChars <+: u →
          rmF (serVal gap (ind ++ gap) (mapEligible z.2) ++ u) =
            serValD gap (ind ++ gap) z.2 ++ rmF u :=
        fun z hz u hm hu => hmem z hz (ind ++ gap) u hind1 hm hu
      have h1 : serVal gap ind (mapEligible (.obj (kv :: kvs2))) =
          if gap = [] then
            braceOpen ::
              joinSep [','] (serEntries gap (ind ++ gap) (mapEligibleObj (kv :: kvs2))) ++
              [braceClose]
          else braceOpen :: '\n' :: (ind ++ gap) ++
            joinSep (',' :: '\n' :: (ind ++ gap))
              (serEntries gap (ind ++ gap) (mapEligibleObj (kv :: kvs2))) ++
            '\n' :: ind ++ [braceClose] := by
        obtain ⟨k, v⟩ := kv
        rw [show mapEligible (.obj ((k, v) :: kvs2)) =
          .obj ((k, mapEligible v) :: mapEligibleObj kvs2) from rfl, serVal_obj_eq]
        rfl
      rw [h1, serValD_obj_eq]
      by_cases hg : gap = []
      · rw [if_pos hg, if_pos hg]
        have hE : (braceOpen ::
            joinSep [','] (serEntries gap (ind ++ gap) (mapEligibleObj (kv :: kvs2))) ++
            [braceClose]) ++ t =
            braceOpen ::
              (joinSep [','] (serEntries gap (ind ++ gap) (mapEligibleObj (kv :: kvs2))) ++
                (braceClose :: t)) := by
          simp
        rw [hE, rmF_cons_nomatch braceOpen _ (fun hc => absurd hc.1 (by decide))]
        rw [rmF_entries gap (ind ++ gap) [] (by simp) (kv :: kvs2)
          hall hmfO (braceClose :: t) (notMarkerPrefix_head _ (by decide))]
        rw [rmF_cons_nomatch braceClose t (fun hc => absurd hc.1 (by decide))]
        simp
      · rw [if_neg hg, if_neg hg]
        have hE : (braceOpen :: '\n' :: (ind ++ gap) ++
            joinSep (',' :: '\n' :: (ind ++ gap))
              (serEntries gap (ind ++ gap) (mapEligibleObj (kv :: kvs2))) ++
            '\n' :: ind ++ [braceClose]) ++ t =
            (braceOpen :: '\n' :: (ind ++ gap)) ++
              (joinSep (',' :: '\n' :: (ind ++ gap))
                (serEntries gap (ind ++ gap) (mapEligibleObj (kv :: kvs2))) ++
                (('\n' :: ind ++ [braceClose]) ++ t)) := by
          simp
        rw [hE]
        rw [rmF_append_noquote (braceOpen :: '\n' :: (ind ++ gap)) _ (by
          intro c hc
          rcases List.mem_cons.mp hc with h | h
          · subst h; decide
          rcases List.mem_cons.mp h with h2 | h2
          · subst h2; decide
          · rw [hind1 c h2]; decide)]
        have hT : ¬ markerChars <+: (('\n' :: ind ++ [braceClose]) ++ t) := by
          simp only [List.cons_append]
          exact notMarkerPrefix_head _ (by decide)
        rw [rmF_entries gap (ind ++ gap) ('\n' :: (ind ++ gap)) (by
            intro c hc
            rcases List.mem_cons.mp hc with h | h
            · subst h; decide
            · rw [hind1 c h]; decide)
          (kv :: kvs2) hall hmfO (('\n' :: ind ++ [braceClose]) ++ t) hT]
        rw [rmF_append_noquote ('\n' :: ind ++ [braceClose]) t (by
          intro c hc
          rcases List.mem_cons.mp hc with h | h
          · subst h; decide
          rcases List.mem_append.mp h with h2 | h2
          · rw [hind c h2]; decide
          · simp only [List.mem_singleton] at h2
            subst h2; decide)]
        simp

/-- C3 (amended): in token-aware mode, for every value in which no string
value or object key contains the marker substring, the pretty and minified
JSON converter output differs from standard JSON serialization only in
that leaf string values satisfying the safe-bare-word rule lose their
surrounding quotes: the output equals the direct serializer that emits
exactly those leaf strings bare, for every indent option. -/
theorem tokenAware_serialization_equiv (indentOpt : Option Nat) (v : Json)
    (h : jsonMarkerFree v = true) :
    jsonStringify true indentOpt v = String.mk (serValD (gapOfIndent indentOpt) [] v) := by
  have hgap : ∀ c ∈ gapOfIndent indentOpt, c = ' ' := by
    cases indentOpt with
    | none => intro c hc; exact absurd hc (by simp [gapOfIndent])
    | some n => intro c hc; exact List.eq_of_mem_replicate hc
  have hmain := rmF_serM (gapOfIndent indentOpt) hgap v [] []
    (by intro c hc; exact absurd hc (by simp)) h notMarkerPrefix_nil
  rw [List.append_nil] at hmain
  have hnil : rmF ([] : List Char) = [] := rfl
  rw [hnil, List.append_nil] at hmain
  show String.mk (rmF (serVal (gapOfIndent indentOpt) [] (mapEligible v))) = _
  rw [hmain]

/-- C3 counterexample: the non-eligible leaf string (it contains a space)
that itself carries the marker substring loses its quotes and its marker
text, so the token-aware output is not the standard serialization with
only eligible strings unquoted. -/
theorem tokenAware_serialization_counterexample :
    jsonStringify true none (Json.obj [("k", Json.str "__UNQUOTED__x y__")]) ≠
      String.mk (serValD (gapOfIndent none) []
        (Json.obj [("k", Json.str "__UNQUOTED__x y__")])) := by
  decide

/-- C3 witness: a marker-free object with an eligible and a numeric leaf,
pretty-printed at indent two. -/
theorem tokenAware_serialization_equiv_witness :
    jsonMarkerFree (Json.obj [("k", Json.str "hello"), ("n", Json.num 5)]) = true ∧
      jsonStringify true (some 2) (Json.obj [("k", Json.str "hello"), ("n", Json.num 5)]) =
        String.mk (serValD (gapOfIndent (some 2)) []
          (Json.obj [("k", Json.str "hello"), ("n", Json.num 5)])) :=
  ⟨by decide, tokenAware_serialization_equiv (some 2) _ (by decide)⟩
